import Mathlib

/-!
# Anonymous access verification (`main.go`): a shallow embedding

The Go program seals one secret `w` together with a per-participant coin under
every participant's public key, lets a client open the envelope addressed to
it, and lets the client re-seal with a deterministic byte stream to check that
every envelope carries the same secret.

Go's `crypto/sha512` and `golang.org/x/crypto/nacl/box` are libraries outside
the repository.  They enter the development as parameters (`Hash512`,
`SealedBox`); the general theorems hold for every instance of them.  SHA-512
itself is also defined (`sha512.Sum512`, after FIPS 180-4) so that the stream can
be evaluated on concrete inputs.
-/

namespace Lindell

/-! ## Data model -/

/-- A Go `byte`. -/
abbrev Byte := Fin 256

/-- A Go `[]byte`; the nil slice and the empty slice are both `[]`. -/
abbrev Bytes := List Byte

/-- A Go `[32]byte` key. -/
abbrev Key := { k : Bytes // k.length = 32 }

/-- The value of a Go `error`: `none` is `nil`, `some msg` is `errors.New(msg)`. -/
abbrev error := Option String

/-- Outcome of a Go function returning `(value, error)`: a value with a nil error,
a non-nil error, or a run-time panic (index or slice bound out of range). -/
inductive Result (α : Type) where
  | ok (v : α) : Result α
  | err (msg : String) : Result α
  | panic : Result α
  deriving DecidableEq, Repr

/-- The type of `sha512.Sum512 : []byte → [64]byte` of the Go standard library.
The program's functions take the hash as a parameter of this type. -/
abbrev Hash512 := Bytes → { r : Bytes // r.length = 64 }

/-- The constant `sha512.Size`. -/
def sha512Size : Nat := 64

/-- The pure part of `golang.org/x/crypto/nacl/box`, taken as a parameter.
`sealWith message recipient ephemeral` is the envelope `SealAnonymous` builds once it
has drawn the 32 bytes `ephemeral` of its ephemeral private key from the reader;
`openAnonymous box publicKey privateKey` is `OpenAnonymous(nil, box, publicKey,
privateKey)`, with `none` for `ok = false`. -/
structure SealedBox where
  sealWith : Bytes → Key → Bytes → Bytes
  openAnonymous : Bytes → Key → Key → Option Bytes

/-- The literal `[]byte("li")`. -/
def magic : Bytes := [108, 105]

/-- The literal `[]byte("deterministic")`. -/
def deterministicSeed : Bytes :=
  [100, 101, 116, 101, 114, 109, 105, 110, 105, 115, 116, 105, 99]

/-- The struct `determRand`. -/
structure determRand where
  next : Bytes
  deriving DecidableEq, Repr

/-- The struct `client`. -/
structure client where
  allPublicKeys : List Key
  privateKey : Key
  encMessages : List Bytes
  wDash : Bytes
  deriving DecidableEq

/-! ## Built-ins and standard library helpers -/

/-- Go's built-in `copy(dst, src)`: overwrites the first `min (len dst) (len src)`
bytes of `dst` and returns the new contents of `dst` with that count. -/
def copy (dst src : Bytes) : Bytes × Nat :=
  (src.take dst.length ++ dst.drop src.length, min dst.length src.length)

/-- The function `bytes.HasPrefix(s, prefix)`. -/
def bytes.HasPrefix (s pre : Bytes) : Bool :=
  decide (pre.length ≤ s.length) && decide (s.take pre.length = pre)

/-- The function `bytes.Equal(a, b)`. -/
def bytes.Equal (a b : Bytes) : Bool := decide (a = b)

/-! ## The deterministic byte stream -/

/-- The function `newDetermRand(seed)`. -/
def newDetermRand (seed : Bytes) : determRand := { next := seed }

/-- The method `(*determRand).cycle`: hash the state, keep the first half of the
digest as the new state, return the second half. -/
def determRand.cycle (H : Hash512) (d : determRand) : determRand × Bytes :=
  let result := (H d.next).val
  ({ next := result.take (sha512Size / 2) }, result.drop (sha512Size / 2))

/-- The loop of `(*determRand).Read`, from the state `(d, b, n)` at the loop
head: while `n < len(b)`, run one cycle and copy its output into `b[n:]`. -/
def determRand.readLoop (H : Hash512) (d : determRand) (b : Bytes) (n : Nat) :
    determRand × Bytes × Nat :=
  if n < b.length then
    let step := d.cycle H
    let c := copy (b.drop n) step.2
    determRand.readLoop H step.1 (b.take n ++ c.1) (n + c.2)
  else
    (d, b, n)
termination_by b.length - n
decreasing_by
  have h64 := (H d.next).property
  simp only [determRand.cycle, copy, sha512Size, List.length_append, List.length_take,
    List.length_drop, h64]
  omega

/-- The method `(*determRand).Read(b)`: the new stream state, the new contents of
`b`, and the returned pair `(n, err)`. -/
def determRand.Read (H : Hash512) (d : determRand) (b : Bytes) :
    determRand × Bytes × Nat × error :=
  let r := determRand.readLoop H d b 0
  (r.1, r.2.1, r.2.2, none)

/-! ## The sealed box over the stream -/

/-- The function `box.SealAnonymous(nil, message, recipient, rand)` with a
`determRand` as its reader.  The library draws the 32 bytes of its ephemeral
private key from `rand` and fails exactly when that read fails (an error, or
fewer than 32 bytes); otherwise it returns the envelope. -/
def SealAnonymous (bx : SealedBox) (H : Hash512) (message : Bytes) (recipient : Key)
    (rand : determRand) : Result Bytes :=
  match rand.Read H (List.replicate 32 0) with
  | (_, _, _, some msg) => .err msg
  | (_, ephemeral, n, none) =>
    if n < 32 then .err "unexpected EOF"
    else .ok (bx.sealWith message recipient ephemeral)

/-! ## Server side -/

/-- The loop `for cnt, p := range pubs` of `encrypt`, from index `cnt` with the
keys still to visit and the slice `out` filled so far. -/
def encryptLoop (bx : SealedBox) (H : Hash512) (w : Bytes) (coins : List Bytes) :
    List Key → Nat → List Bytes → Result (List Bytes)
  | [], _, out => .ok out
  | p :: ps, cnt, out =>
    match coins[cnt]? with
    | none => .panic
    | some coin =>
      match SealAnonymous bx H (w ++ coin) p (newDetermRand deterministicSeed) with
      | .ok enc => encryptLoop bx H w coins ps (cnt + 1) (out.set cnt enc)
      | .err msg => .err msg
      | .panic => .panic

/-- The function `encrypt(pubs, w, coins)`. -/
def encrypt (bx : SealedBox) (H : Hash512) (pubs : List Key) (w : Bytes)
    (coins : List Bytes) : Result (List Bytes) :=
  if pubs.length ≠ coins.length then
    .err "length public keys and coins do not match"
  else
    encryptLoop bx H w coins pubs 0 (List.replicate pubs.length [])

/-! ## Client side -/

/-- The loop `for cnt, p := range c.allPublicKeys` of `decrypt`, from index `cnt`
with the keys still to visit.  `decrypted[:10]` panics when the opened plaintext
is shorter than 10 bytes (the library returns it with capacity equal to its
length). -/
def decryptLoop (bx : SealedBox) (c : client) : List Key → Nat → client × Result Bytes
  | [], _ => (c, .err "decryption not possible")
  | p :: ps, cnt =>
    match c.encMessages[cnt]? with
    | none => (c, .panic)
    | some enc =>
      match bx.openAnonymous enc p c.privateKey with
      | none => decryptLoop bx c ps (cnt + 1)
      | some decrypted =>
        if bytes.HasPrefix decrypted magic then
          if decrypted.length < 10 then (c, .panic)
          else ({ c with wDash := decrypted.take 10 }, .ok (decrypted.take 10))
        else decryptLoop bx c ps (cnt + 1)

/-- The method `(*client).decrypt()`: the client after the call and what the
call returns. -/
def client.decrypt (bx : SealedBox) (c : client) : client × Result Bytes :=
  if c.allPublicKeys.length ≠ c.encMessages.length then
    (c, .err "length of public keys and encrypted messages do not match")
  else
    decryptLoop bx c c.allPublicKeys 0

/-- The loop `for cnt, p := range c.allPublicKeys` of `verify`, from index `cnt`
with the keys still to visit.  `.ok ()` is the nil error. -/
def verifyLoop (bx : SealedBox) (H : Hash512) (c : client) (coins : List Bytes) :
    List Key → Nat → Result Unit
  | [], _ => .ok ()
  | p :: ps, cnt =>
    match coins[cnt]? with
    | none => .panic
    | some coin =>
      match SealAnonymous bx H (c.wDash ++ coin) p (newDetermRand deterministicSeed) with
      | .ok enc =>
        match c.encMessages[cnt]? with
        | none => .panic
        | some orig =>
          if !bytes.Equal enc orig then .err "it appears the server cheated on us"
          else verifyLoop bx H c coins ps (cnt + 1)
      | .err msg => .err msg
      | .panic => .panic

/-- The method `(client).verify(coins)`; the receiver is a copy, so the caller's
client is untouched. -/
def client.verify (bx : SealedBox) (H : Hash512) (c : client) (coins : List Bytes) :
    Result Unit :=
  if c.allPublicKeys.length ≠ coins.length ∨ coins.length ≠ c.encMessages.length then
    .err "length of public keys, encrypted messages and coins does not match"
  else
    verifyLoop bx H c coins c.allPublicKeys 0

/-! ## SHA-512 and a sealed box to evaluate with -/

namespace sha512

/-- Rotate a 64-bit word right by `n` bits. -/
def rotr (x n : Nat) : Nat := ((x >>> n) ||| (x <<< (64 - n))) % 2 ^ 64

def smallSigma0 (x : Nat) : Nat := rotr x 1 ^^^ rotr x 8 ^^^ (x >>> 7)

def smallSigma1 (x : Nat) : Nat := rotr x 19 ^^^ rotr x 61 ^^^ (x >>> 6)

def bigSigma0 (x : Nat) : Nat := rotr x 28 ^^^ rotr x 34 ^^^ rotr x 39

def bigSigma1 (x : Nat) : Nat := rotr x 14 ^^^ rotr x 18 ^^^ rotr x 41

def ch (e f g : Nat) : Nat := (e &&& f) ^^^ ((e ^^^ (2 ^ 64 - 1)) &&& g)

def maj (a b c : Nat) : Nat := (a &&& b) ^^^ (a &&& c) ^^^ (b &&& c)

/-- The eighty round constants. -/
def K : List Nat :=
  [0x428a2f98d728ae22, 0x7137449123ef65cd, 0xb5c0fbcfec4d3b2f, 0xe9b5dba58189dbbc,
   0x3956c25bf348b538, 0x59f111f1b605d019, 0x923f82a4af194f9b, 0xab1c5ed5da6d8118,
   0xd807aa98a3030242, 0x12835b0145706fbe, 0x243185be4ee4b28c, 0x550c7dc3d5ffb4e2,
   0x72be5d74f27b896f, 0x80deb1fe3b1696b1, 0x9bdc06a725c71235, 0xc19bf174cf692694,
   0xe49b69c19ef14ad2, 0xefbe4786384f25e3, 0x0fc19dc68b8cd5b5, 0x240ca1cc77ac9c65,
   0x2de92c6f592b0275, 0x4a7484aa6ea6e483, 0x5cb0a9dcbd41fbd4, 0x76f988da831153b5,
   0x983e5152ee66dfab, 0xa831c66d2db43210, 0xb00327c898fb213f, 0xbf597fc7beef0ee4,
   0xc6e00bf33da88fc2, 0xd5a79147930aa725, 0x06ca6351e003826f, 0x142929670a0e6e70,
   0x27b70a8546d22ffc, 0x2e1b21385c26c926, 0x4d2c6dfc5ac42aed, 0x53380d139d95b3df,
   0x650a73548baf63de, 0x766a0abb3c77b2a8, 0x81c2c92e47edaee6, 0x92722c851482353b,
   0xa2bfe8a14cf10364, 0xa81a664bbc423001, 0xc24b8b70d0f89791, 0xc76c51a30654be30,
   0xd192e819d6ef5218, 0xd69906245565a910, 0xf40e35855771202a, 0x106aa07032bbd1b8,
   0x19a4c116b8d2d0c8, 0x1e376c085141ab53, 0x2748774cdf8eeb99, 0x34b0bcb5e19b48a8,
   0x391c0cb3c5c95a63, 0x4ed8aa4ae3418acb, 0x5b9cca4f7763e373, 0x682e6ff3d6b2b8a3,
   0x748f82ee5defb2fc, 0x78a5636f43172f60, 0x84c87814a1f0ab72, 0x8cc702081a6439ec,
   0x90befffa23631e28, 0xa4506cebde82bde9, 0xbef9a3f7b2c67915, 0xc67178f2e372532b,
   0xca273eceea26619c, 0xd186b8c721c0c207, 0xeada7dd6cde0eb1e, 0xf57d4f7fee6ed178,
   0x06f067aa72176fba, 0x0a637dc5a2c898a6, 0x113f9804bef90dae, 0x1b710b35131c471b,
   0x28db77f523047d84, 0x32caab7b40c72493, 0x3c9ebe0a15c9bebc, 0x431d67c49c100d4c,
   0x4cc5d4becb3e42b6, 0x597f299cfc657e2a, 0x5fcb6fab3ad6faec, 0x6c44198c4a475817]

/-- The initial hash value. -/
def init : List Nat :=
  [0x6a09e667f3bcc908, 0xbb67ae8584caa73b, 0x3c6ef372fe94f82b, 0xa54ff53a5f1d36f1,
   0x510e527fade682d1, 0x9b05688c2b3e6c1f, 0x1f83d9abfb41bd6b, 0x5be0cd19137e2179]

/-- One round on the working variables `a .. h` with constant `k` and schedule
word `w`. -/
def round (st : List Nat) (k w : Nat) : List Nat :=
  match st with
  | [a, b, c, d, e, f, g, h] =>
    let t1 := (h + bigSigma1 e + ch e f g + k + w) % 2 ^ 64
    let t2 := (bigSigma0 a + maj a b c) % 2 ^ 64
    [(t1 + t2) % 2 ^ 64, a, b, c, (d + t1) % 2 ^ 64, e, f, g]
  | _ => st

/-- The rounds for the remaining constants; `w` holds the sixteen schedule words
from the current one on. -/
def rounds : List Nat → List Nat → List Nat → List Nat
  | [], _, st => st
  | k :: ks, w, st =>
    let wnew := (smallSigma1 (w.getD 14 0) + w.getD 9 0 + smallSigma0 (w.getD 1 0)
      + w.getD 0 0) % 2 ^ 64
    rounds ks (w.drop 1 ++ [wnew]) (round st k (w.getD 0 0))

/-- The compression of one 16-word block into the hash value `st`. -/
def compress (st block : List Nat) : List Nat :=
  List.zipWith (fun x y => (x + y) % 2 ^ 64) st (rounds K block st)

/-- A big-endian word from its bytes. -/
def beWord (bs : List Nat) : Nat := bs.foldl (fun acc b => acc * 256 + b) 0

/-- The sixteen 64-bit words of a 128-byte block. -/
def words (data : List Nat) : List Nat :=
  (List.range 16).map (fun i => beWord ((data.drop (8 * i)).take 8))

/-- The padded message: `0x80`, zeros, and the bit length as 16 big-endian bytes,
up to a multiple of 128 bytes. -/
def pad (msg : List Nat) : List Nat :=
  msg ++ [0x80] ++ List.replicate ((239 - msg.length % 128) % 128) 0
    ++ (List.range 16).map (fun i => ((8 * msg.length) >>> (8 * (15 - i))) % 256)

/-- The hash value after compressing the first `n` blocks of `data`. -/
def blocks : Nat → List Nat → List Nat → List Nat
  | 0, _, st => st
  | n + 1, data, st => blocks n (data.drop 128) (compress st (words (data.take 128)))

/-- The 64 bytes of the SHA-512 digest of `msg`. -/
def digest (msg : List Nat) : List Nat :=
  let data := pad msg
  let st := blocks (data.length / 128) data init
  (List.range 64).map (fun i => (st.getD (i / 8) 0 >>> (8 * (7 - i % 8))) % 256)

/-- The function `sha512.Sum512`. -/
def Sum512 : Hash512 := fun msg =>
  ⟨(digest (msg.map Fin.val)).map (Fin.ofNat), by simp [digest]⟩

end sha512

/-- A sealed box to instantiate the parameter with: the envelope is the ephemeral
bytes, the recipient's key and the message in clear, and it opens for the private
key equal to the recipient's key.  It hides nothing, but it opens exactly what it
sealed, and only for the key it was sealed to. -/
def clearBox : SealedBox where
  sealWith message recipient ephemeral := ephemeral.take 32 ++ recipient.val ++ message
  openAnonymous box publicKey privateKey :=
    if privateKey = publicKey ∧ (box.drop 32).take 32 = publicKey.val ∧ 64 ≤ box.length then
      some (box.drop 64)
    else none

/-- The 32-byte key all of whose bytes are `x`. -/
def constKey (x : Byte) : Key := ⟨List.replicate 32 x, by simp⟩

/-! ## The hash chain, as the specification words it -/

/-- The state `s_k` of the chain: `s_0 = seed` and `s_k` is the first 32 bytes of
`d_k`. -/
def chainState (H : Hash512) (seed : Bytes) : Nat → Bytes
  | 0 => seed
  | k + 1 => (H (chainState H seed k)).val.take 32

/-- The digest `d_k = SHA-512(s_{k-1})`, for `k ≥ 1`. -/
def chainDigest (H : Hash512) (seed : Bytes) (k : Nat) : Bytes :=
  (H (chainState H seed (k - 1))).val

/-- The output `out_k`: the last 32 bytes of `d_k`, for `k ≥ 1`. -/
def chainOut (H : Hash512) (seed : Bytes) (k : Nat) : Bytes :=
  (chainDigest H seed k).drop 32

/-- The concatenation `out_1 ‖ out_2 ‖ ... ‖ out_m`. -/
def chainPrefix (H : Hash512) (seed : Bytes) : Nat → Bytes
  | 0 => []
  | m + 1 => chainPrefix H seed m ++ chainOut H seed (m + 1)

/-- The bytes two successive reads of a fresh stream deliver, concatenated: a
`Read` into `b₁`, then a `Read` into `b₂` on the state the first one left. -/
def readTwice (H : Hash512) (seed : Bytes) (b₁ b₂ : Bytes) : Bytes :=
  let r₁ := (newDetermRand seed).Read H b₁
  let r₂ := r₁.1.Read H b₂
  r₁.2.1 ++ r₂.2.1

/-- The bytes one `Read` of a fresh stream delivers. -/
def readOnce (H : Hash512) (seed : Bytes) (b : Bytes) : Bytes :=
  ((newDetermRand seed).Read H b).2.1

/-- The 32 bytes a fresh stream seeded `"deterministic"` hands to the sealed box
for its ephemeral key. -/
def freshEphemeral (H : Hash512) : Bytes :=
  readOnce H deterministicSeed (List.replicate 32 0)

/-- The envelope for `message` under `recipient` built from a fresh stream seeded
`"deterministic"`. -/
def sealFresh (bx : SealedBox) (H : Hash512) (recipient : Key) (message : Bytes) : Bytes :=
  bx.sealWith message recipient (freshEphemeral H)

/-! ## Assumptions on the sealed box, and example data -/

/-- The box opens what it sealed: an envelope sealed under `pub` (with any 32
ephemeral bytes) opens with `(pub, priv)` to exactly its plaintext. -/
def OpensWhatItSealed (bx : SealedBox) (pub priv : Key) : Prop :=
  ∀ (m e : Bytes), e.length = 32 → bx.openAnonymous (bx.sealWith m pub e) pub priv = some m

/-- With the private key `other`, an envelope sealed under `pub` opens to nothing
but its plaintext: either it does not open, or it opens to what was sealed (as it
does when `other` acts as the private key of `pub`). -/
def OpensNothingElse (bx : SealedBox) (pub other : Key) : Prop :=
  ∀ (m e : Bytes), e.length = 32 →
    bx.openAnonymous (bx.sealWith m pub e) pub other = none
      ∨ bx.openAnonymous (bx.sealWith m pub e) pub other = some m

/-- The sealed box is correct for the key pairs `(pubs[k], privs[k])`: an envelope
sealed under `pubs[k]` opens with `privs[k]` to its plaintext, and with the
private key of any participant it opens to nothing else. -/
def BoxCorrect (bx : SealedBox) (pubs privs : List Key) : Prop :=
  ∀ (k : Nat) (pub priv : Key), pubs[k]? = some pub → privs[k]? = some priv →
    OpensWhatItSealed bx pub priv ∧ ∀ (other : Key), other ∈ privs → OpensNothingElse bx pub other

/-- The clamping X25519 applies to a private key before using it as a scalar:
the low three bits of byte 0 and the top bit of byte 31 are cleared, bit 6 of
byte 31 is set.  Private keys with the same clamped form act alike. -/
def clampKey (k : Key) : Key :=
  ⟨(k.val.set 0 (k.val.getD 0 0 / 8 * 8)).set 31 (k.val.getD 31 0 % 64 + 64), by
    simp [k.property]⟩

/-- A sealed box in which, as in `nacl/box`, a private key acts only through its
clamped form: the public key of `priv` is `clampKey priv`, the envelope is the
ephemeral bytes, the recipient's key and the message in clear, and it opens for
every private key whose clamped form is the recipient's key. -/
def clampBox : SealedBox where
  sealWith message recipient ephemeral := ephemeral.take 32 ++ recipient.val ++ message
  openAnonymous box publicKey privateKey :=
    if clampKey privateKey = publicKey ∧ (box.drop 32).take 32 = publicKey.val
        ∧ 64 ≤ box.length then
      some (box.drop 64)
    else none

/-- A private key that differs from `constKey 3` in byte 0 and has the same
clamped form. -/
def aliasKey : Key := ⟨7 :: List.replicate 31 3, by decide⟩

/-- Four private keys, the last two acting alike under `clampBox`. -/
def aliasPrivs : List Key := [constKey 1, constKey 2, constKey 3, aliasKey]

/-- The public keys of `aliasPrivs` under `clampBox`. -/
def aliasPubs : List Key := aliasPrivs.map clampKey

/-- Four keys; with `clearBox` each is its own private key. -/
def demoKeys : List Key := [constKey 1, constKey 2, constKey 3, constKey 4]

/-- The secret `"li" ‖ 0x0102030405060708`. -/
def demoSecret : Bytes := [108, 105, 1, 2, 3, 4, 5, 6, 7, 8]

/-- Four distinct 8-byte coins. -/
def demoCoins : List Bytes :=
  [[11, 12, 13, 14, 15, 16, 17, 18], [21, 22, 23, 24, 25, 26, 27, 28],
   [31, 32, 33, 34, 35, 36, 37, 38], [41, 42, 43, 44, 45, 46, 47, 48]]

/-- The envelopes of `demoSecret` with `demoCoins` under `demoKeys`. -/
def demoEnvelopes : List Bytes :=
  List.zipWith (fun p c => sealFresh clearBox sha512.Sum512 p (demoSecret ++ c)) demoKeys
    demoCoins

/-- A client of the honest run: participant 3, with the secret recovered. -/
def demoClient : client :=
  { allPublicKeys := demoKeys, privateKey := constKey 3, encMessages := demoEnvelopes,
    wDash := demoSecret }

/-- Secrets of a cheating server: participant 2 gets a secret of its own. -/
def cheatSecrets : List Bytes :=
  [demoSecret, [108, 105, 9, 9, 9, 9, 9, 9, 9, 9], demoSecret, demoSecret]

/-- The envelopes of a cheating server: `cheatSecrets[i] ‖ demoCoins[i]` under
`demoKeys[i]`. -/
def cheatEnvelopes : List Bytes :=
  List.zipWith (fun p m => sealFresh clearBox sha512.Sum512 p m) demoKeys
    (List.zipWith (fun w c => w ++ c) cheatSecrets demoCoins)

/-- A client served by the cheating server, holding the secret of the honest
participants. -/
def cheatClient : client :=
  { allPublicKeys := demoKeys, privateKey := constKey 3, encMessages := cheatEnvelopes,
    wDash := demoSecret }

/-! ## Key generation -/

/-- The key generator `box.GenerateKey(rand.Reader)` as a supplied capability:
`gen k` is what the `k`-th call returns, `(publicKey, privateKey, err)`, the keys
being pointers (`none` is the nil pointer). -/
abbrev KeyGen := Nat → Option Key × Option Key × error

/-- The loop `for i := 0; i < n; i++` of `genKeyPairs`, with `k` iterations left
at index `i` and the two slices filled so far. -/
def genKeyPairsLoop (gen : KeyGen) :
    Nat → Nat → List (Option Key) → List (Option Key) →
      List (Option Key) × List (Option Key) × error
  | 0, _, pubOut, privOut => (pubOut, privOut, none)
  | k + 1, i, pubOut, privOut =>
    match gen i with
    | (_, _, some msg) => ([], [], some msg)
    | (pub, priv, none) => genKeyPairsLoop gen k (i + 1) (pubOut.set i pub) (privOut.set i priv)

/-- The function `genKeyPairs(n)` for `n ≥ 0`: two slices of key pointers and the
error. -/
def genKeyPairs (gen : KeyGen) (n : Nat) :
    List (Option Key) × List (Option Key) × error :=
  genKeyPairsLoop gen n 0 (List.replicate n none) (List.replicate n none)

/-! ## Calls and their effect on the caller's client -/

/-- A call `c.verify(coins)` seen from the caller: `verify` has a value receiver,
so it runs on a copy and the caller keeps its client. -/
def client.callVerify (bx : SealedBox) (H : Hash512) (c : client) (coins : List Bytes) :
    client × Result Unit :=
  let receiver := c
  (c, receiver.verify bx H coins)

/-- Envelope `i` of the client opens with `(allPublicKeys[i], privateKey)` to the
plaintext `d`, and `d` begins with the marker `"li"`. -/
def OpensMarked (bx : SealedBox) (c : client) (i : Nat) (d : Bytes) : Prop :=
  ∃ (p : Key) (e : Bytes), c.allPublicKeys[i]? = some p ∧ c.encMessages[i]? = some e
    ∧ bx.openAnonymous e p c.privateKey = some d ∧ bytes.HasPrefix d magic = true

/-- An envelope anyone can build for the key `constKey 1`: the 2-byte plaintext
`"li"` sealed with 32 zero bytes as ephemeral key. -/
def shortEnvelope : Bytes := clearBox.sealWith magic (constKey 1) (List.replicate 32 0)

/-- A client that is sent `shortEnvelope`. -/
def shortClient : client :=
  { allPublicKeys := [constKey 1], privateKey := constKey 1, encMessages := [shortEnvelope],
    wDash := [] }

/-- The messages of the five errors the program creates with `errors.New`: the
length mismatches of `encrypt`, `decrypt` and `verify`, the impossible decryption
and the cheat. -/
def errorMessages : List String :=
  ["length public keys and coins do not match",
   "length of public keys and encrypted messages do not match",
   "length of public keys, encrypted messages and coins does not match",
   "decryption not possible",
   "it appears the server cheated on us"]

/-- A client whose lists differ in length: four keys, one envelope. -/
def mismatchClient : client :=
  { allPublicKeys := demoKeys, privateKey := constKey 3, encMessages := [shortEnvelope],
    wDash := [] }

/-- A client of the honest run whose private key belongs to no participant. -/
def strangerClient : client :=
  { allPublicKeys := demoKeys, privateKey := constKey 9, encMessages := demoEnvelopes,
    wDash := [] }

/-- Four envelopes for a scan by the key `constKey 3`: one for another key, one
that opens without the marker, and two that open with it. -/
def scanEnvelopes : List Bytes :=
  [clearBox.sealWith (demoSecret ++ [11, 12, 13, 14, 15, 16, 17, 18]) (constKey 1)
     (List.replicate 32 0),
   clearBox.sealWith ([120, 120, 1, 2, 3, 4, 5, 6, 7, 8] ++ [21, 22, 23, 24, 25, 26, 27, 28])
     (constKey 3) (List.replicate 32 0),
   clearBox.sealWith ([108, 105, 5, 5, 5, 5, 5, 5, 5, 5] ++ [31, 32, 33, 34, 35, 36, 37, 38])
     (constKey 3) (List.replicate 32 0),
   clearBox.sealWith ([108, 105, 6, 6, 6, 6, 6, 6, 6, 6] ++ [41, 42, 43, 44, 45, 46, 47, 48])
     (constKey 3) (List.replicate 32 0)]

/-- The client scanning `scanEnvelopes` with the key `constKey 3`. -/
def scanClient : client :=
  { allPublicKeys := [constKey 1, constKey 3, constKey 3, constKey 3],
    privateKey := constKey 3, encMessages := scanEnvelopes, wDash := [] }

/-- A secret with the marker but only 5 bytes long. -/
def oddSecret : Bytes := [108, 105, 1, 2, 3]

/-! ## SHA-512: the test vector of FIPS 180-4 -/

set_option maxRecDepth 100000 in
/-- The digest of `"abc"`. -/
theorem sha512_abc :
    (sha512.Sum512 [97, 98, 99]).val =
      [221, 175, 53, 161, 147, 97, 122, 186, 204, 65, 115, 73, 174, 32, 65, 49, 18, 230, 250, 78,
       137, 169, 126, 162, 10, 158, 238, 230, 75, 85, 211, 154, 33, 146, 153, 42, 39, 79, 193, 168,
       54, 186, 60, 35, 163, 254, 235, 189, 69, 77, 68, 35, 100, 60, 232, 14, 42, 154, 201, 79,
       165, 76, 164, 159] := by
  decide

/-! ## Lemmas on the hash chain -/

theorem chainState_succ_front (H : Hash512) (seed : Bytes) (k : Nat) :
    chainState H seed (k + 1) = chainState H ((H seed).val.take 32) k := by
  induction k with
  | zero => rfl
  | succ k ih =>
    show ((H (chainState H seed (k + 1))).val.take 32) = _
    rw [ih]
    rfl

theorem chainOut_succ_front (H : Hash512) (seed : Bytes) (k : Nat) :
    chainOut H seed (k + 2) = chainOut H ((H seed).val.take 32) (k + 1) := by
  simp only [chainOut, chainDigest, Nat.add_sub_cancel]
  rw [show k + 2 - 1 = k + 1 from rfl, chainState_succ_front]

theorem chainPrefix_succ_front (H : Hash512) (seed : Bytes) (m : Nat) :
    chainPrefix H seed (m + 1)
      = (H seed).val.drop 32 ++ chainPrefix H ((H seed).val.take 32) m := by
  induction m with
  | zero => simp [chainPrefix, chainOut, chainDigest, chainState]
  | succ m ih =>
    show chainPrefix H seed (m + 1) ++ chainOut H seed (m + 2) = _
    rw [ih, chainOut_succ_front]
    simp [chainPrefix]

theorem chainOut_length (H : Hash512) (seed : Bytes) (k : Nat) :
    (chainOut H seed k).length = 32 := by
  have h := (H (chainState H seed (k - 1))).property
  simp [chainOut, chainDigest, h]

theorem chainPrefix_length (H : Hash512) (seed : Bytes) (m : Nat) :
    (chainPrefix H seed m).length = 32 * m := by
  induction m with
  | zero => rfl
  | succ m ih => simp [chainPrefix, ih, chainOut_length]; omega

theorem chainPrefix_add (H : Hash512) (seed : Bytes) (m j : Nat) :
    chainPrefix H seed (m + j)
      = chainPrefix H seed m ++ chainPrefix H (chainState H seed m) j := by
  induction m generalizing seed with
  | zero => simp [chainPrefix, chainState]
  | succ m ih =>
    rw [show m + 1 + j = (m + j) + 1 by omega, chainPrefix_succ_front, ih,
      chainPrefix_succ_front, chainState_succ_front, List.append_assoc]

theorem chainPrefix_take_of_le (H : Hash512) (seed : Bytes) (n m m' : Nat)
    (hm : n ≤ 32 * m) (hm' : m ≤ m') :
    (chainPrefix H seed m').take n = (chainPrefix H seed m).take n := by
  obtain ⟨j, rfl⟩ := Nat.exists_eq_add_of_le hm'
  rw [chainPrefix_add, List.take_append_of_le_length]
  rw [chainPrefix_length]
  exact hm

theorem take_fill (b o : Bytes) (n : Nat) (hn : n ≤ b.length) :
    (b.take n ++ (o.take (b.length - n) ++ (b.drop n).drop o.length)).take
        (n + min (b.length - n) o.length)
      = b.take n ++ o.take (b.length - n) := by
  rw [← List.append_assoc]
  apply List.take_left'
  simp
  omega

/-- What the loop of `Read` computes from any loop head `(d, b, n)` with
`n ≤ len(b)`: it runs `⌈(len(b) - n) / 32⌉` cycles and fills `b[n:]` with the
chain's output from the state `d.next`. -/
theorem readLoop_eq (H : Hash512) (k : Nat) :
    ∀ (d : determRand) (b : Bytes) (n : Nat), b.length - n = k → n ≤ b.length →
      determRand.readLoop H d b n
        = ({ next := chainState H d.next ((k + 31) / 32) },
           b.take n ++ (chainPrefix H d.next ((k + 31) / 32)).take k, b.length) := by
  induction k using Nat.strong_induction_on with
  | _ k ih =>
    intro d b n hk hn
    rw [determRand.readLoop]
    by_cases hlt : n < b.length
    · have h64 := (H d.next).property
      have hlen : (b.take n ++ (copy (b.drop n) (d.cycle H).2).1).length = b.length := by
        simp [copy, determRand.cycle, sha512Size, h64]
        omega
      have hcnt : (copy (b.drop n) (d.cycle H).2).2 = min (b.length - n) 32 := by
        simp [copy, determRand.cycle, sha512Size, h64]
      simp only [hlt, if_true]
      rw [ih (k - min (b.length - n) 32) (by omega) _ _ _ (by rw [hlen, hcnt]; omega)
        (by rw [hlen, hcnt]; omega)]
      rw [hlen, hcnt]
      have hm : (k + 31) / 32 = (k - min (b.length - n) 32 + 31) / 32 + 1 := by omega
      rw [hm, chainState_succ_front, chainPrefix_succ_front]
      have hnext : (d.cycle H).1.next = (H d.next).val.take 32 := by
        simp [determRand.cycle, sha512Size]
      rw [hnext]
      refine Prod.ext rfl (Prod.ext ?_ rfl)
      simp only [copy, determRand.cycle, sha512Size, Nat.reduceDiv, List.length_drop, h64,
        Nat.reduceSub]
      have hdrop : ((H d.next).val.drop 32).length = 32 := by simp [h64]
      have hfill := take_fill b ((H d.next).val.drop 32) n hn
      rw [hdrop] at hfill
      rw [hfill, List.append_assoc, @List.take_append_eq_append_take _
        (List.drop 32 (H d.next).val), hdrop, hk]
      have e2 : k - min k 32 = k - 32 := by omega
      rw [e2]
    · have hk0 : k = 0 := by omega
      subst hk0
      have : n = b.length := by omega
      subst this
      simp [hlt, chainState, chainPrefix]

/-- The method `Read` in closed form: it runs `⌈len(b) / 32⌉` cycles, fills `b` with
the first `len(b)` bytes of the chain's output, and returns `(len(b), nil)`. -/
theorem Read_eq (H : Hash512) (d : determRand) (b : Bytes) :
    d.Read H b
      = ({ next := chainState H d.next ((b.length + 31) / 32) },
         (chainPrefix H d.next ((b.length + 31) / 32)).take b.length, b.length, none) := by
  simp [determRand.Read, readLoop_eq H b.length d b 0 rfl (Nat.zero_le _)]

theorem Read_buffer_length (H : Hash512) (d : determRand) (b : Bytes) :
    (d.Read H b).2.1.length = b.length := by
  rw [Read_eq]
  simp [chainPrefix_length]
  omega

/-! ## The deterministic byte stream: claims -/

/-- C6. Determinism of the byte stream: two streams built by `newDetermRand` from
equal seeds, each asked once to `Read` into a buffer of `k` bytes (whatever the
buffers held before), end in the same state and fill their buffers with the same
bytes, returning the same count and error. -/
theorem determRand_deterministic (H : Hash512) (seed₁ seed₂ : Bytes) (k : Nat)
    (b₁ b₂ : Bytes) (hseed : seed₁ = seed₂) (h₁ : b₁.length = k) (h₂ : b₂.length = k) :
    (newDetermRand seed₁).Read H b₁ = (newDetermRand seed₂).Read H b₂ := by
  subst hseed
  rw [Read_eq, Read_eq, h₁, h₂]

theorem determRand_deterministic_witness :
    deterministicSeed = deterministicSeed
      ∧ (List.replicate 40 (0 : Byte)).length = 40
      ∧ (List.replicate 40 (255 : Byte)).length = 40
      ∧ (newDetermRand deterministicSeed).Read sha512.Sum512 (List.replicate 40 0)
          = (newDetermRand deterministicSeed).Read sha512.Sum512 (List.replicate 40 255) :=
  ⟨rfl, by decide, by decide,
    determRand_deterministic sha512.Sum512 deterministicSeed deterministicSeed 40 _ _ rfl
      (by decide) (by decide)⟩

/-- C7. For every stream state (in particular a fresh one, for every seed) and
every buffer `b` of length `n ≥ 0`, `Read(b)` is defined (the model is a total
function, the loop being by well-founded recursion on `len(b) - n`), returns
`(n, nil)`, leaves `b` with `n` bytes none of which depends on what `b` held
before, and so `SealAnonymous` reading from the stream returns an envelope, not an
error. -/
theorem Read_full_no_error (H : Hash512) (d : determRand) (b : Bytes) :
    (d.Read H b).2.2 = (b.length, none)
      ∧ (d.Read H b).2.1.length = b.length
      ∧ (d.Read H b).2.1 = (d.Read H (List.replicate b.length 0)).2.1
      ∧ ∀ (bx : SealedBox) (message : Bytes) (recipient : Key),
          ∃ enc, SealAnonymous bx H message recipient d = .ok enc := by
  refine ⟨by rw [Read_eq], Read_buffer_length H d b, by simp [Read_eq], ?_⟩
  intro bx message recipient
  simp [SealAnonymous, Read_eq]

/-- C8. For every seed and every buffer of `n ≥ 0` bytes, the bytes a fresh
stream writes on `Read` are the first `n` bytes of `out_1 ‖ out_2 ‖ ... ‖ out_m`
(for any `m` with `n ≤ 32 m`), where `s_0 = seed`, `d_k = SHA-512(s_{k-1})`,
`s_k` is the first and `out_k` the last 32 bytes of `d_k`. -/
theorem Read_is_chain_prefix (H : Hash512) (seed : Bytes) (b : Bytes) (m : Nat)
    (hm : b.length ≤ 32 * m) :
    ((newDetermRand seed).Read H b).2.1 = (chainPrefix H seed m).take b.length := by
  rw [Read_eq]
  exact (chainPrefix_take_of_le H seed b.length _ m (by omega) (by omega)).symm

theorem Read_is_chain_prefix_witness :
    (List.replicate 40 (0 : Byte)).length ≤ 32 * 2
      ∧ ((newDetermRand deterministicSeed).Read sha512.Sum512 (List.replicate 40 0)).2.1
          = (chainPrefix sha512.Sum512 deterministicSeed 2).take
              (List.replicate 40 (0 : Byte)).length :=
  ⟨by decide, Read_is_chain_prefix sha512.Sum512 deterministicSeed _ 2 (by decide)⟩

set_option maxRecDepth 100000 in
/-- C9, as stated, fails: with SHA-512 and the seed `"deterministic"`, reading 1
byte and then 1 byte gives `out_1[0], out_2[0] = 43, 106`, while reading 2 bytes
at once gives `out_1[0], out_1[1] = 43, 165`: the unused tail of a cycle's output
is discarded. -/
theorem read_split_counterexample :
    readTwice sha512.Sum512 deterministicSeed [0] [0] = [43, 106]
      ∧ readOnce sha512.Sum512 deterministicSeed [0, 0] = [43, 165]
      ∧ readTwice sha512.Sum512 deterministicSeed [0] [0]
          ≠ readOnce sha512.Sum512 deterministicSeed [0, 0] := by
  simp only [readTwice, readOnce, Read_eq, newDetermRand]
  decide

/-- C9, amended. For every seed and all `a, b ≥ 0` with `a` a multiple of 32 or
`b = 0`, a stream that reads `a` bytes and then `b` bytes delivers, concatenated,
the same `a + b` bytes as a stream from the same seed that reads `a + b` bytes at
once. -/
theorem read_split_of_aligned (H : Hash512) (seed : Bytes) (a b : Nat)
    (b₁ b₂ b₁₂ : Bytes) (h₁ : b₁.length = a) (h₂ : b₂.length = b)
    (h₁₂ : b₁₂.length = a + b) (hab : a % 32 = 0 ∨ b = 0) :
    readTwice H seed b₁ b₂ = readOnce H seed b₁₂ := by
  simp only [readTwice, readOnce, Read_eq, newDetermRand, h₁, h₂, h₁₂]
  rcases hab with ha | hb
  · obtain ⟨q, rfl⟩ : ∃ q, a = 32 * q := ⟨a / 32, by omega⟩
    have e₁ : (32 * q + 31) / 32 = q := by omega
    have e₂ : (32 * q + b + 31) / 32 = q + (b + 31) / 32 := by omega
    have hP := chainPrefix_length H seed q
    rw [e₁, e₂, chainPrefix_add, ← hP, List.take_length, List.take_append]
  · subst hb
    simp

theorem read_split_of_aligned_witness :
    (List.replicate 32 (0 : Byte)).length = 32
      ∧ (List.replicate 5 (0 : Byte)).length = 5
      ∧ (List.replicate 37 (0 : Byte)).length = 32 + 5
      ∧ (32 % 32 = 0 ∨ 5 = 0)
      ∧ readTwice sha512.Sum512 deterministicSeed (List.replicate 32 0) (List.replicate 5 0)
          = readOnce sha512.Sum512 deterministicSeed (List.replicate 37 0) :=
  ⟨by decide, by decide, by decide, by decide,
    read_split_of_aligned sha512.Sum512 deterministicSeed 32 5 _ _ _ (by decide) (by decide)
      (by decide) (by decide)⟩

/-! ## Lemmas on sealing, `encrypt` and `verify` -/

theorem freshEphemeral_length (H : Hash512) : (freshEphemeral H).length = 32 := by
  simp [freshEphemeral, readOnce, Read_buffer_length]

/-- With a fresh deterministic stream `SealAnonymous` never fails, and returns
the same envelope each time. -/
theorem SealAnonymous_fresh (bx : SealedBox) (H : Hash512) (message : Bytes)
    (recipient : Key) :
    SealAnonymous bx H message recipient (newDetermRand deterministicSeed)
      = .ok (sealFresh bx H recipient message) := by
  simp [SealAnonymous, sealFresh, freshEphemeral, readOnce, Read_eq]

theorem take_set_self (l : List Bytes) (n : Nat) (a : Bytes) :
    (l.set n a).take n = l.take n := by
  apply List.ext_getElem?
  intro i
  rw [List.getElem?_take, List.getElem?_take]
  split
  · rw [List.getElem?_set_ne (by omega)]
  · rfl

theorem encryptLoop_eq (bx : SealedBox) (H : Hash512) (w : Bytes) (coins : List Bytes) :
    ∀ (ps : List Key) (cnt : Nat) (out : List Bytes),
      cnt + ps.length ≤ coins.length → out.length = cnt + ps.length →
      encryptLoop bx H w coins ps cnt out
        = .ok (out.take cnt
            ++ List.zipWith (fun p c => sealFresh bx H p (w ++ c)) ps (coins.drop cnt)) := by
  intro ps
  induction ps with
  | nil =>
    intro cnt out _ hout
    simp only [List.length_nil, Nat.add_zero] at hout
    simp [encryptLoop, ← hout]
  | cons p ps ih =>
    intro cnt out hc hout
    simp only [List.length_cons] at hc hout
    have hlt : cnt < coins.length := by omega
    have hlt' : cnt < out.length := by omega
    simp only [encryptLoop, List.getElem?_eq_getElem hlt, SealAnonymous_fresh]
    rw [ih (cnt + 1) _ (by omega) (by simp; omega)]
    rw [List.drop_eq_getElem_cons hlt, List.zipWith_cons_cons, List.take_succ,
      take_set_self]
    simp [List.getElem?_set, hlt']

/-- The function `encrypt` on lists of equal length: element-wise sealing. -/
theorem encrypt_eq (bx : SealedBox) (H : Hash512) (pubs : List Key) (w : Bytes)
    (coins : List Bytes) (hlen : pubs.length = coins.length) :
    encrypt bx H pubs w coins
      = .ok (List.zipWith (fun p c => sealFresh bx H p (w ++ c)) pubs coins) := by
  simp only [encrypt, hlen, ne_eq, not_true_eq_false, if_false]
  rw [encryptLoop_eq bx H w coins pubs 0 _ (by omega) (by simp [hlen])]
  simp

theorem verifyLoop_eq (bx : SealedBox) (H : Hash512) (c : client) (coins : List Bytes) :
    ∀ (ps : List Key) (cnt : Nat),
      cnt + ps.length ≤ coins.length → cnt + ps.length ≤ c.encMessages.length →
      verifyLoop bx H c coins ps cnt
        = if List.zipWith (fun p coin => sealFresh bx H p (c.wDash ++ coin)) ps
              (coins.drop cnt) = (c.encMessages.drop cnt).take ps.length
          then .ok () else .err "it appears the server cheated on us" := by
  intro ps
  induction ps with
  | nil => intro cnt _ _; simp [verifyLoop]
  | cons p ps ih =>
    intro cnt hc he
    simp only [List.length_cons] at hc he
    have hlt : cnt < coins.length := by omega
    have hlt' : cnt < c.encMessages.length := by omega
    simp only [verifyLoop, List.getElem?_eq_getElem hlt, List.getElem?_eq_getElem hlt',
      SealAnonymous_fresh]
    rw [ih (cnt + 1) (by omega) (by omega)]
    rw [List.drop_eq_getElem_cons hlt, List.drop_eq_getElem_cons hlt', List.zipWith_cons_cons,
      List.length_cons, List.take_succ_cons]
    by_cases heq : sealFresh bx H p (c.wDash ++ coins[cnt]) = c.encMessages[cnt]
    · simp [bytes.Equal, heq]
    · simp [bytes.Equal, heq]

/-- The method `verify` on lists of equal length: one comparison of the re-sealed
list with the envelopes. -/
theorem verify_eq (bx : SealedBox) (H : Hash512) (c : client) (coins : List Bytes)
    (h₁ : c.allPublicKeys.length = coins.length)
    (h₂ : coins.length = c.encMessages.length) :
    c.verify bx H coins
      = if List.zipWith (fun p coin => sealFresh bx H p (c.wDash ++ coin)) c.allPublicKeys
            coins = c.encMessages
        then .ok () else .err "it appears the server cheated on us" := by
  simp only [client.verify, h₁, h₂, ne_eq, not_true_eq_false, or_self, if_false]
  rw [verifyLoop_eq bx H c coins _ 0 (by omega) (by omega)]
  simp [h₁, h₂]

theorem zipWith_eq_iff_getElem? {α β γ : Type} (f : α → β → γ) (l₁ : List α) (l₂ : List β)
    (l₃ : List γ) (h₁ : l₁.length = l₂.length) (h₂ : l₂.length = l₃.length) :
    List.zipWith f l₁ l₂ = l₃
      ↔ ∀ (i : Nat) (a : α) (b : β) (c : γ),
          l₁[i]? = some a → l₂[i]? = some b → l₃[i]? = some c → f a b = c := by
  constructor
  · rintro rfl i a b c ha hb hc
    rw [List.getElem?_zipWith, ha, hb] at hc
    simpa using hc
  · intro h
    apply List.ext_getElem?
    intro i
    rw [List.getElem?_zipWith]
    by_cases hi : i < l₁.length
    · have hi₂ : i < l₂.length := by omega
      have hi₃ : i < l₃.length := by omega
      rw [List.getElem?_eq_getElem hi, List.getElem?_eq_getElem hi₂,
        List.getElem?_eq_getElem hi₃]
      simp only [Option.some.injEq]
      exact h i _ _ _ (List.getElem?_eq_getElem hi) (List.getElem?_eq_getElem hi₂)
        (List.getElem?_eq_getElem hi₃)
    · rw [List.getElem?_eq_none (by omega : l₁.length ≤ i),
        List.getElem?_eq_none (by omega : l₃.length ≤ i)]

theorem sealFresh_injective (bx : SealedBox) (H : Hash512) (p : Key)
    (hopen : ∃ priv, OpensWhatItSealed bx p priv) (m₁ m₂ : Bytes)
    (h : sealFresh bx H p m₁ = sealFresh bx H p m₂) : m₁ = m₂ := by
  obtain ⟨priv, hpriv⟩ := hopen
  have h₁ := hpriv m₁ _ (freshEphemeral_length H)
  have h₂ := hpriv m₂ _ (freshEphemeral_length H)
  simp only [sealFresh] at h
  rw [h, h₂] at h₁
  exact (Option.some.inj h₁).symm

/-- One index whose re-sealed envelope differs from the received one makes
`verify` return the cheat error. -/
theorem verify_err_of_mismatch (bx : SealedBox) (H : Hash512) (c : client)
    (coins : List Bytes) (h₁ : c.allPublicKeys.length = coins.length)
    (h₂ : coins.length = c.encMessages.length) (i : Nat) (p : Key) (coin orig : Bytes)
    (hp : c.allPublicKeys[i]? = some p) (hc : coins[i]? = some coin)
    (ho : c.encMessages[i]? = some orig)
    (hne : sealFresh bx H p (c.wDash ++ coin) ≠ orig) :
    c.verify bx H coins = .err "it appears the server cheated on us" := by
  rw [verify_eq bx H c coins h₁ h₂, if_neg]
  intro heq
  rw [zipWith_eq_iff_getElem? _ _ _ _ h₁ h₂] at heq
  exact hne (heq i p coin orig hp hc ho)

theorem clearBox_opens (k : Key) : OpensWhatItSealed clearBox k k := by
  intro m e he
  have hk := k.property
  simp only [OpensWhatItSealed, clearBox, List.take_of_length_le (Nat.le_of_eq he)]
  have h₁ : (List.drop 32 (e ++ k.val ++ m)).take 32 = k.val := by
    rw [List.append_assoc, List.drop_left' he]
    exact List.take_left' hk
  have h₂ : List.drop 64 (e ++ k.val ++ m) = m :=
    List.drop_left' (by simp [he, hk])
  have h₃ : 64 ≤ (e ++ k.val ++ m).length := by simp [he, hk]; omega
  rw [if_pos ⟨trivial, h₁, h₃⟩, h₂]

theorem drop_envelope (e m : Bytes) (k : Key) (he : e.length = 32) :
    List.drop 64 (e ++ k.val ++ m) = m :=
  List.drop_left' (by simp [he, k.property])

theorem clearBox_nothing_else (pub other : Key) : OpensNothingElse clearBox pub other := by
  intro m e he
  simp only [clearBox, List.take_of_length_le (Nat.le_of_eq he)]
  split
  · exact Or.inr (by rw [drop_envelope e m pub he])
  · exact Or.inl rfl

theorem clearBox_correct (keys : List Key) : BoxCorrect clearBox keys keys := by
  intro k pub priv hpub hpriv
  rw [hpub] at hpriv
  cases hpriv
  exact ⟨clearBox_opens pub, fun other _ => clearBox_nothing_else pub other⟩

theorem clampBox_opens (priv : Key) : OpensWhatItSealed clampBox (clampKey priv) priv := by
  intro m e he
  have hk := (clampKey priv).property
  simp only [clampBox, List.take_of_length_le (Nat.le_of_eq he)]
  have h₁ : (List.drop 32 (e ++ (clampKey priv).val ++ m)).take 32 = (clampKey priv).val := by
    rw [List.append_assoc, List.drop_left' he]
    exact List.take_left' hk
  have h₃ : 64 ≤ (e ++ (clampKey priv).val ++ m).length := by simp [he, hk]; omega
  rw [if_pos ⟨trivial, h₁, h₃⟩, drop_envelope e m (clampKey priv) he]

theorem clampBox_nothing_else (pub other : Key) : OpensNothingElse clampBox pub other := by
  intro m e he
  simp only [clampBox, List.take_of_length_le (Nat.le_of_eq he)]
  split
  · exact Or.inr (by rw [drop_envelope e m pub he])
  · exact Or.inl rfl

/-- The box `clampBox` is correct for every list of private keys with their
public keys, also when several private keys act alike. -/
theorem clampBox_correct (privs : List Key) :
    BoxCorrect clampBox (privs.map clampKey) privs := by
  intro k pub priv hpub hpriv
  rw [List.getElem?_map, hpriv] at hpub
  cases hpub
  exact ⟨clampBox_opens priv, fun other _ => clampBox_nothing_else _ other⟩

theorem demoEnvelopes_eq :
    encrypt clearBox sha512.Sum512 demoKeys demoSecret demoCoins = .ok demoEnvelopes :=
  encrypt_eq clearBox sha512.Sum512 demoKeys demoSecret demoCoins (by decide)

theorem built_of_zipWith (bx : SealedBox) (H : Hash512) (pubs : List Key)
    (ws coins : List Bytes) (i : Nat) (p : Key) (coin w enc : Bytes)
    (hp : pubs[i]? = some p) (hc : coins[i]? = some coin) (hw : ws[i]? = some w)
    (he : (List.zipWith (fun p m => sealFresh bx H p m) pubs
        (List.zipWith (fun w c => w ++ c) ws coins))[i]? = some enc) :
    SealAnonymous bx H (w ++ coin) p (newDetermRand deterministicSeed) = .ok enc := by
  rw [List.getElem?_zipWith, List.getElem?_zipWith, hp, hc, hw] at he
  simp only [Option.some.injEq] at he
  rw [SealAnonymous_fresh, he]

theorem HasPrefix_append_magic (w coin : Bytes) (hw : w.length = 10)
    (hli : w.take 2 = magic) : bytes.HasPrefix (w ++ coin) magic = true := by
  have h2 : (w ++ coin).take 2 = magic := by
    rw [List.take_append_of_le_length (by omega), hli]
  simp [bytes.HasPrefix, magic, hw] at h2 ⊢
  exact ⟨by omega, h2⟩

/-- The scan of `decrypt` returns `w` when every remaining envelope either does
not open or opens to `w ‖ coin`, and at least one opens. -/
theorem decryptLoop_found (bx : SealedBox) (c : client) (w : Bytes) (hw : w.length = 10)
    (hli : w.take 2 = magic) :
    ∀ (ps : List Key) (cnt : Nat),
      (∀ (j : Nat) (p : Key), ps[j]? = some p →
          ∃ e, c.encMessages[cnt + j]? = some e
            ∧ (bx.openAnonymous e p c.privateKey = none
                ∨ ∃ coin, bx.openAnonymous e p c.privateKey = some (w ++ coin))) →
      (∃ (j : Nat) (p : Key) (e : Bytes), ps[j]? = some p ∧ c.encMessages[cnt + j]? = some e
          ∧ bx.openAnonymous e p c.privateKey ≠ none) →
      decryptLoop bx c ps cnt = ({ c with wDash := w }, .ok w) := by
  intro ps
  induction ps with
  | nil =>
    rintro cnt _ ⟨j, p, e, hp, _⟩
    simp at hp
  | cons p ps ih =>
    intro cnt hall hex
    obtain ⟨e, he, hopen⟩ := hall 0 p (by simp)
    rw [Nat.add_zero] at he
    have hrec : (∀ (j : Nat) (q : Key), ps[j]? = some q →
          ∃ e, c.encMessages[cnt + 1 + j]? = some e
            ∧ (bx.openAnonymous e q c.privateKey = none
                ∨ ∃ coin, bx.openAnonymous e q c.privateKey = some (w ++ coin))) := by
      intro j q hq
      have := hall (j + 1) q (by simpa using hq)
      rwa [show cnt + (j + 1) = cnt + 1 + j by omega] at this
    rcases hopen with hnone | ⟨coin, hsome⟩
    · simp only [decryptLoop, he, hnone]
      apply ih (cnt + 1) hrec
      obtain ⟨j, q, e', hq, he', hne⟩ := hex
      cases j with
      | zero =>
        rw [Nat.add_zero, he] at he'
        cases he'
        simp only [List.getElem?_cons_zero, Option.some.injEq] at hq
        subst hq
        exact absurd hnone hne
      | succ j =>
        refine ⟨j, q, e', by simpa using hq, ?_, hne⟩
        rwa [show cnt + (j + 1) = cnt + 1 + j by omega] at he'
    · have hlen : ¬ (w ++ coin).length < 10 := by simp [hw]
      have htake : (w ++ coin).take 10 = w := by
        rw [List.take_append_of_le_length (by omega), List.take_of_length_le (by omega)]
      simp only [decryptLoop, he, hsome, HasPrefix_append_magic w coin hw hli, hlen, htake,
        if_true, if_false]

/-! ## Sealing and verification: claims -/

/-- C10. For every `pubs`, `w` and `coins` with `len(pubs) = len(coins)`,
`encrypt` returns no error and a list `out` with `len(out) = len(pubs)` in which,
at every index `i`, `out[i]` is the envelope `SealAnonymous` returns for
`w ‖ coins[i]` under `pubs[i]` with a fresh stream seeded `"deterministic"`: a
function of `pubs[i]`, `w` and `coins[i]` alone.  (`w` is a value here; nothing
can change it.) -/
theorem encrypt_elementwise (bx : SealedBox) (H : Hash512) (pubs : List Key) (w : Bytes)
    (coins : List Bytes) (hlen : pubs.length = coins.length) :
    ∃ out, encrypt bx H pubs w coins = .ok out ∧ out.length = pubs.length
      ∧ ∀ (i : Nat) (p : Key) (coin : Bytes), pubs[i]? = some p → coins[i]? = some coin →
          ∃ enc, out[i]? = some enc
            ∧ SealAnonymous bx H (w ++ coin) p (newDetermRand deterministicSeed) = .ok enc := by
  refine ⟨_, encrypt_eq bx H pubs w coins hlen, by simp [hlen], ?_⟩
  intro i p coin hp hc
  refine ⟨sealFresh bx H p (w ++ coin), ?_, SealAnonymous_fresh bx H _ p⟩
  rw [List.getElem?_zipWith, hp, hc]

theorem encrypt_elementwise_witness :
    demoKeys.length = demoCoins.length
      ∧ ∃ out, encrypt clearBox sha512.Sum512 demoKeys demoSecret demoCoins = .ok out
          ∧ out.length = demoKeys.length
          ∧ ∀ (i : Nat) (p : Key) (coin : Bytes), demoKeys[i]? = some p →
              demoCoins[i]? = some coin →
              ∃ enc, out[i]? = some enc
                ∧ SealAnonymous clearBox sha512.Sum512 (demoSecret ++ coin) p
                    (newDetermRand deterministicSeed) = .ok enc :=
  ⟨by decide,
    encrypt_elementwise clearBox sha512.Sum512 demoKeys demoSecret demoCoins (by decide)⟩

/-- C3. Honest run verifies: for equal-length `pubs` and `coins` and every secret
`w`, a client holding the envelopes `encrypt(pubs, w, coins)` returned and
`wDash = w` gets no error from `verify` with the original coins. -/
theorem verify_honest (bx : SealedBox) (H : Hash512) (pubs : List Key) (priv : Key)
    (w : Bytes) (coins encs : List Bytes) (hlen : pubs.length = coins.length)
    (henc : encrypt bx H pubs w coins = .ok encs) :
    client.verify bx H
      { allPublicKeys := pubs, privateKey := priv, encMessages := encs, wDash := w } coins
      = .ok () := by
  rw [encrypt_eq bx H pubs w coins hlen] at henc
  injection henc with henc
  subst henc
  rw [verify_eq _ _ _ _ hlen (by simp [hlen])]
  simp

theorem verify_honest_witness :
    demoKeys.length = demoCoins.length
      ∧ encrypt clearBox sha512.Sum512 demoKeys demoSecret demoCoins = .ok demoEnvelopes
      ∧ client.verify clearBox sha512.Sum512
          { allPublicKeys := demoKeys, privateKey := constKey 3,
            encMessages := demoEnvelopes, wDash := demoSecret } demoCoins = .ok () :=
  ⟨by decide, demoEnvelopes_eq,
    verify_honest clearBox sha512.Sum512 demoKeys (constKey 3) demoSecret demoCoins
      demoEnvelopes (by decide) demoEnvelopes_eq⟩

/-- C4. For every client and coin list with `len(allPublicKeys) = len(coins) =
len(encMessages)`, `verify(coins)` returns nil exactly when at every index `i`
the envelope `SealAnonymous` returns for `wDash ‖ coins[i]` under
`allPublicKeys[i]` with a fresh stream seeded `"deterministic"` equals
`encMessages[i]`; otherwise it returns the cheat error. -/
theorem verify_ok_iff (bx : SealedBox) (H : Hash512) (c : client) (coins : List Bytes)
    (h₁ : c.allPublicKeys.length = coins.length)
    (h₂ : coins.length = c.encMessages.length) :
    (c.verify bx H coins = .ok ()
        ↔ ∀ (i : Nat) (p : Key) (coin orig : Bytes), c.allPublicKeys[i]? = some p →
            coins[i]? = some coin → c.encMessages[i]? = some orig →
            SealAnonymous bx H (c.wDash ++ coin) p (newDetermRand deterministicSeed)
              = .ok orig)
      ∧ (c.verify bx H coins ≠ .ok ()
          → c.verify bx H coins = .err "it appears the server cheated on us") := by
  rw [verify_eq bx H c coins h₁ h₂]
  constructor
  · simp only [SealAnonymous_fresh, Result.ok.injEq]
    rw [← zipWith_eq_iff_getElem? (fun p coin => sealFresh bx H p (c.wDash ++ coin)) _ _ _ h₁ h₂]
    split <;> simp_all
  · split <;> simp

theorem verify_ok_iff_witness :
    demoClient.allPublicKeys.length = demoCoins.length
      ∧ demoCoins.length = demoClient.encMessages.length
      ∧ (demoClient.verify clearBox sha512.Sum512 demoCoins = .ok ()
          ↔ ∀ (i : Nat) (p : Key) (coin orig : Bytes), demoClient.allPublicKeys[i]? = some p →
              demoCoins[i]? = some coin → demoClient.encMessages[i]? = some orig →
              SealAnonymous clearBox sha512.Sum512 (demoClient.wDash ++ coin) p
                (newDetermRand deterministicSeed) = .ok orig)
      ∧ (demoClient.verify clearBox sha512.Sum512 demoCoins ≠ .ok ()
          → demoClient.verify clearBox sha512.Sum512 demoCoins
              = .err "it appears the server cheated on us") :=
  ⟨by decide, by decide,
    verify_ok_iff clearBox sha512.Sum512 demoClient demoCoins (by decide) (by decide)⟩

/-- C2. Cheat detection: for every client whose three lists have equal length, if
every envelope was built as `encMessages[i] = SealAnonymous(allPublicKeys[i],
w_i ‖ coins[i])` with the deterministic stream and the box opens what it sealed
(for each public key there is a private key that opens its envelopes), then a
secret `w_j` different from `wDash` makes `verify(coins)` return the cheat error;
equivalently, `verify` returning nil implies that every `w_i` equals `wDash`.
The secrets need not even be 10 bytes long. -/
theorem verify_detects_cheat (bx : SealedBox) (H : Hash512) (c : client)
    (coins ws : List Bytes) (h₁ : c.allPublicKeys.length = coins.length)
    (h₂ : coins.length = c.encMessages.length) (hws : ws.length = coins.length)
    (hbuilt : ∀ (i : Nat) (p : Key) (coin w enc : Bytes), c.allPublicKeys[i]? = some p →
      coins[i]? = some coin → ws[i]? = some w → c.encMessages[i]? = some enc →
      SealAnonymous bx H (w ++ coin) p (newDetermRand deterministicSeed) = .ok enc)
    (hopen : ∀ p ∈ c.allPublicKeys, ∃ priv, OpensWhatItSealed bx p priv) :
    ((∃ (j : Nat) (w : Bytes), ws[j]? = some w ∧ w ≠ c.wDash)
        → c.verify bx H coins = .err "it appears the server cheated on us")
      ∧ (c.verify bx H coins = .ok ()
          → ∀ (j : Nat) (w : Bytes), ws[j]? = some w → w = c.wDash) := by
  have key : ∀ (j : Nat) (w : Bytes), ws[j]? = some w → w ≠ c.wDash →
      c.verify bx H coins = .err "it appears the server cheated on us" := by
    intro j w hw hne
    have hj : j < ws.length := (List.getElem?_eq_some.mp hw).1
    have hjc : j < coins.length := by omega
    have hjp : j < c.allPublicKeys.length := by omega
    have hje : j < c.encMessages.length := by omega
    have hb := hbuilt j _ _ w _ (List.getElem?_eq_getElem hjp) (List.getElem?_eq_getElem hjc)
      hw (List.getElem?_eq_getElem hje)
    rw [SealAnonymous_fresh] at hb
    injection hb with hb
    apply verify_err_of_mismatch bx H c coins h₁ h₂ j _ _ _ (List.getElem?_eq_getElem hjp)
      (List.getElem?_eq_getElem hjc) (List.getElem?_eq_getElem hje)
    rw [← hb]
    intro heq
    have := sealFresh_injective bx H _ (hopen _ (List.getElem_mem hjp)) _ _ heq
    exact hne (List.append_cancel_right this).symm
  refine ⟨fun ⟨j, w, hw, hne⟩ => key j w hw hne, ?_⟩
  intro hok j w hw
  by_contra hne
  rw [key j w hw hne] at hok
  cases hok

theorem verify_detects_cheat_witness :
    cheatClient.allPublicKeys.length = demoCoins.length
      ∧ demoCoins.length = cheatClient.encMessages.length
      ∧ cheatSecrets.length = demoCoins.length
      ∧ (∃ (j : Nat) (w : Bytes), cheatSecrets[j]? = some w ∧ w ≠ cheatClient.wDash)
      ∧ cheatClient.verify clearBox sha512.Sum512 demoCoins
          = .err "it appears the server cheated on us" :=
  ⟨by decide, by decide, by decide, ⟨1, _, rfl, by decide⟩,
    (verify_detects_cheat clearBox sha512.Sum512 cheatClient demoCoins cheatSecrets
      (by decide) (by decide) (by decide)
      (fun i p coin w enc hp hc hw he =>
        built_of_zipWith clearBox sha512.Sum512 demoKeys cheatSecrets demoCoins i p coin w enc
          hp hc hw he)
      (fun p _ => ⟨p, clearBox_opens p⟩)).1 ⟨1, _, rfl, by decide⟩⟩

/-- C5. For every honest run (`encMessages = encrypt(pubs, w, coins)`,
`wDash = w`), every index `j` and every byte position `pos` of `coins[j]`,
replacing `coins[j]` by a copy whose byte at `pos` is changed (from `old` to
`x ≠ old`), all else held fixed, makes `verify` return the cheat error, assuming
the sealed box opens what it sealed. -/
theorem verify_detects_coin_change (bx : SealedBox) (H : Hash512) (pubs : List Key)
    (priv : Key) (w : Bytes) (coins encs : List Bytes) (j pos : Nat) (coin : Bytes)
    (old x : Byte) (hlen : pubs.length = coins.length)
    (henc : encrypt bx H pubs w coins = .ok encs)
    (hopen : ∀ p ∈ pubs, ∃ priv', OpensWhatItSealed bx p priv')
    (hj : coins[j]? = some coin) (hpos : coin[pos]? = some old) (hx : x ≠ old) :
    client.verify bx H
      { allPublicKeys := pubs, privateKey := priv, encMessages := encs, wDash := w }
      (coins.set j (coin.set pos x))
      = .err "it appears the server cheated on us" := by
  rw [encrypt_eq bx H pubs w coins hlen] at henc
  injection henc with henc
  subst henc
  have hjc : j < coins.length := (List.getElem?_eq_some.mp hj).1
  have hjp : j < pubs.length := by omega
  have hcoin : coins[j] = coin := (List.getElem?_eq_some.mp hj).2
  have hposlt : pos < coin.length := (List.getElem?_eq_some.mp hpos).1
  apply verify_err_of_mismatch bx H _ _ (by simp [hlen]) (by simp [hlen]) j pubs[j]
    (coin.set pos x) (sealFresh bx H pubs[j] (w ++ coin))
  · exact List.getElem?_eq_getElem hjp
  · simp [List.getElem?_set, hjc]
  · simp only [List.getElem?_zipWith, List.getElem?_eq_getElem hjp, hj]
  · intro heq
    have happ := sealFresh_injective bx H _ (hopen _ (List.getElem_mem hjp)) _ _ heq
    have hset : coin.set pos x = coin := List.append_cancel_left happ
    have h₁ : (coin.set pos x)[pos]? = some x := by simp [List.getElem?_set, hposlt]
    rw [hset, hpos] at h₁
    exact hx (Option.some.inj h₁).symm

theorem verify_detects_coin_change_witness :
    demoKeys.length = demoCoins.length
      ∧ encrypt clearBox sha512.Sum512 demoKeys demoSecret demoCoins = .ok demoEnvelopes
      ∧ demoCoins[0]? = some [11, 12, 13, 14, 15, 16, 17, 18]
      ∧ ([11, 12, 13, 14, 15, 16, 17, 18] : Bytes)[7]? = some 18
      ∧ (19 : Byte) ≠ 18
      ∧ client.verify clearBox sha512.Sum512
          { allPublicKeys := demoKeys, privateKey := constKey 3,
            encMessages := demoEnvelopes, wDash := demoSecret }
          (demoCoins.set 0 (List.set [11, 12, 13, 14, 15, 16, 17, 18] 7 19))
          = .err "it appears the server cheated on us" :=
  ⟨by decide, demoEnvelopes_eq, rfl, rfl, by decide,
    verify_detects_coin_change clearBox sha512.Sum512 demoKeys (constKey 3) demoSecret
      demoCoins demoEnvelopes 0 7 [11, 12, 13, 14, 15, 16, 17, 18] 18 19 (by decide)
      demoEnvelopes_eq (fun p _ => ⟨p, clearBox_opens p⟩) rfl rfl (by decide)⟩

/-! ## The round trip: claim -/

/-- C1. Round trip: for every `n ≥ 1`, every list of `n` key pairs
`(pubs[k], privs[k])` for which the sealed box is correct (an envelope sealed
under `pubs[k]` opens with `privs[k]` to exactly its plaintext, and with another
participant's private key it does not open, or at most, when that key acts as
`privs[k]` does, opens to the same plaintext), every well-formed secret `w`
(10 bytes beginning with `"li"`), every coin list of length `n` and every index
`i`, `encrypt(pubs, w, coins)` returns envelopes, and a client holding
`allPublicKeys = pubs`, `privateKey = privs[i]` and these envelopes gets from
`decrypt()` exactly `w` with no error (and keeps `w` as its `wDash`).  That
`n ≥ 1` follows from `privs[i]` existing. -/
theorem decrypt_roundtrip (bx : SealedBox) (H : Hash512) (pubs privs : List Key)
    (w : Bytes) (coins : List Bytes) (i : Nat) (priv : Key) (wDash₀ : Bytes)
    (hprivs : privs.length = pubs.length)
    (hcoins : coins.length = pubs.length) (hw : w.length = 10) (hli : w.take 2 = magic)
    (hbox : BoxCorrect bx pubs privs) (hi : privs[i]? = some priv) :
    ∃ encs, encrypt bx H pubs w coins = .ok encs
      ∧ client.decrypt bx
          { allPublicKeys := pubs, privateKey := priv, encMessages := encs, wDash := wDash₀ }
        = ({ allPublicKeys := pubs, privateKey := priv, encMessages := encs, wDash := w },
           .ok w) := by
  refine ⟨_, encrypt_eq bx H pubs w coins hcoins.symm, ?_⟩
  have hlen : pubs.length
      = (List.zipWith (fun p c => sealFresh bx H p (w ++ c)) pubs coins).length := by
    simp [hcoins]
  simp only [client.decrypt, hlen.symm, ne_eq, not_true_eq_false, if_false]
  have henv : ∀ (j : Nat) (p : Key), pubs[j]? = some p →
      ∃ coin pj, coins[j]? = some coin ∧ privs[j]? = some pj
        ∧ (List.zipWith (fun p c => sealFresh bx H p (w ++ c)) pubs coins)[j]?
            = some (sealFresh bx H p (w ++ coin)) := by
    intro j p hp
    have hj : j < pubs.length := (List.getElem?_eq_some.mp hp).1
    refine ⟨coins[j], privs[j], List.getElem?_eq_getElem (by omega),
      List.getElem?_eq_getElem (by omega), ?_⟩
    rw [List.getElem?_zipWith, hp, List.getElem?_eq_getElem (by omega : j < coins.length)]
  apply decryptLoop_found bx _ w hw hli pubs 0
  · intro j p hp
    obtain ⟨coin, pj, _, hpj, he⟩ := henv j p hp
    refine ⟨_, by simpa using he, ?_⟩
    rcases (hbox j p pj hp hpj).2 priv (List.getElem?_mem hi) (w ++ coin) _
        (freshEphemeral_length H) with hnone | hsome
    · exact Or.inl hnone
    · exact Or.inr ⟨coin, hsome⟩
  · have hil : i < privs.length := (List.getElem?_eq_some.mp hi).1
    have hp : pubs[i]? = some pubs[i] := List.getElem?_eq_getElem (by omega)
    obtain ⟨coin, pj, _, hpj, he⟩ := henv i _ hp
    rw [hi] at hpj
    cases hpj
    refine ⟨i, _, _, hp, by simpa using he, ?_⟩
    have := (hbox i _ priv hp hi).1 (w ++ coin) _ (freshEphemeral_length H)
    simp only [sealFresh]
    rw [this]
    exact Option.some_ne_none _

theorem decrypt_roundtrip_witness :
    aliasPrivs.length = aliasPubs.length ∧ demoCoins.length = aliasPubs.length
      ∧ demoSecret.length = 10 ∧ demoSecret.take 2 = magic
      ∧ aliasPrivs[3]? = some aliasKey ∧ aliasKey ≠ constKey 3
      ∧ clampKey aliasKey = clampKey (constKey 3)
      ∧ ∃ encs, encrypt clampBox sha512.Sum512 aliasPubs demoSecret demoCoins = .ok encs
          ∧ client.decrypt clampBox
              { allPublicKeys := aliasPubs, privateKey := aliasKey, encMessages := encs,
                wDash := [] }
            = ({ allPublicKeys := aliasPubs, privateKey := aliasKey, encMessages := encs,
                 wDash := demoSecret }, .ok demoSecret) :=
  ⟨by decide, by decide, by decide, by decide, rfl, by decide, by decide,
    decrypt_roundtrip clampBox sha512.Sum512 aliasPubs aliasPrivs demoSecret demoCoins 3
      aliasKey [] (by decide) (by decide) (by decide) (by decide)
      (clampBox_correct aliasPrivs) rfl⟩

/-! ## The scan of `decrypt` -/

/-- The scan from index `cnt`: either no remaining envelope opens to a marked
plaintext and the result is the error, or there is a lowest such index and the
result is decided by its plaintext. -/
theorem decryptLoop_cases (bx : SealedBox) (c : client)
    (hlen : c.allPublicKeys.length = c.encMessages.length) :
    ∀ (k cnt : Nat), cnt + k = c.allPublicKeys.length →
      (decryptLoop bx c (c.allPublicKeys.drop cnt) cnt = (c, .err "decryption not possible")
          ∧ ∀ (i : Nat) (d : Bytes), cnt ≤ i → ¬ OpensMarked bx c i d)
        ∨ ∃ (i : Nat) (d : Bytes), cnt ≤ i ∧ OpensMarked bx c i d
            ∧ (∀ (j : Nat) (d' : Bytes), cnt ≤ j → j < i → ¬ OpensMarked bx c j d')
            ∧ decryptLoop bx c (c.allPublicKeys.drop cnt) cnt
                = if d.length < 10 then (c, .panic)
                  else ({ c with wDash := d.take 10 }, .ok (d.take 10)) := by
  intro k
  induction k with
  | zero =>
    intro cnt hcnt
    left
    rw [List.drop_of_length_le (by omega)]
    refine ⟨rfl, ?_⟩
    rintro i d hi ⟨p, e, hp, _⟩
    have := (List.getElem?_eq_some.mp hp).1
    omega
  | succ k ih =>
    intro cnt hcnt
    have hlt : cnt < c.allPublicKeys.length := by omega
    have hlt' : cnt < c.encMessages.length := by omega
    have hp : c.allPublicKeys[cnt]? = some c.allPublicKeys[cnt] := List.getElem?_eq_getElem hlt
    have he : c.encMessages[cnt]? = some c.encMessages[cnt] := List.getElem?_eq_getElem hlt'
    rw [List.drop_eq_getElem_cons hlt]
    -- what the scan does when envelope `cnt` is skipped
    have skip : (∀ d, ¬ OpensMarked bx c cnt d) →
        decryptLoop bx c (c.allPublicKeys[cnt] :: c.allPublicKeys.drop (cnt + 1)) cnt
          = decryptLoop bx c (c.allPublicKeys.drop (cnt + 1)) (cnt + 1) →
        (decryptLoop bx c (c.allPublicKeys[cnt] :: c.allPublicKeys.drop (cnt + 1)) cnt
              = (c, .err "decryption not possible")
            ∧ ∀ (i : Nat) (d : Bytes), cnt ≤ i → ¬ OpensMarked bx c i d)
          ∨ ∃ (i : Nat) (d : Bytes), cnt ≤ i ∧ OpensMarked bx c i d
              ∧ (∀ (j : Nat) (d' : Bytes), cnt ≤ j → j < i → ¬ OpensMarked bx c j d')
              ∧ decryptLoop bx c (c.allPublicKeys[cnt] :: c.allPublicKeys.drop (cnt + 1)) cnt
                  = if d.length < 10 then (c, .panic)
                    else ({ c with wDash := d.take 10 }, .ok (d.take 10)) := by
      intro hno hstep
      rw [hstep]
      rcases ih (cnt + 1) (by omega) with ⟨hres, hnone⟩ | ⟨i, d, hi, hm, hlow, hres⟩
      · left
        refine ⟨hres, ?_⟩
        intro i d hi
        rcases Nat.eq_or_lt_of_le hi with h | h
        · subst h
          exact hno d
        · exact hnone i d h
      · right
        refine ⟨i, d, by omega, hm, ?_, hres⟩
        intro j d' hj hji
        rcases Nat.eq_or_lt_of_le hj with h | h
        · subst h
          exact hno d'
        · exact hlow j d' h hji
    cases hopen : bx.openAnonymous c.encMessages[cnt] c.allPublicKeys[cnt] c.privateKey with
    | none =>
      apply skip
      · rintro d ⟨p, e, hp', he', ho, _⟩
        rw [hp] at hp'
        rw [he] at he'
        cases hp'
        cases he'
        rw [hopen] at ho
        cases ho
      · simp only [decryptLoop, he, hopen]
    | some d =>
      cases hpre : bytes.HasPrefix d magic with
      | false =>
        apply skip
        · rintro d' ⟨p, e, hp', he', ho, hm⟩
          rw [hp] at hp'
          rw [he] at he'
          cases hp'
          cases he'
          rw [hopen] at ho
          cases ho
          rw [hpre] at hm
          cases hm
        · simp [decryptLoop, he, hopen, hpre]
      | true =>
        right
        refine ⟨cnt, d, Nat.le_refl _, ⟨_, _, hp, he, hopen, hpre⟩, ?_, ?_⟩
        · intro j d' hj hji
          omega
        · simp only [decryptLoop, he, hopen, hpre, if_true]

/-- The method `decrypt` on lists of equal length: either no envelope opens to a
marked plaintext and the result is the error, or the result is decided by the
plaintext of the lowest index that does. -/
theorem decrypt_cases (bx : SealedBox) (c : client)
    (hlen : c.allPublicKeys.length = c.encMessages.length) :
    (c.decrypt bx = (c, .err "decryption not possible")
        ∧ ∀ (i : Nat) (d : Bytes), ¬ OpensMarked bx c i d)
      ∨ ∃ (i : Nat) (d : Bytes), OpensMarked bx c i d
          ∧ (∀ (j : Nat) (d' : Bytes), j < i → ¬ OpensMarked bx c j d')
          ∧ c.decrypt bx
              = if d.length < 10 then (c, .panic)
                else ({ c with wDash := d.take 10 }, .ok (d.take 10)) := by
  have hdec : c.decrypt bx = decryptLoop bx c (c.allPublicKeys.drop 0) 0 := by
    simp [client.decrypt, hlen]
  rw [hdec]
  rcases decryptLoop_cases bx c hlen c.allPublicKeys.length 0 (by omega) with
    ⟨hres, hnone⟩ | ⟨i, d, _, hm, hlow, hres⟩
  · exact Or.inl ⟨hres, fun i d => hnone i d (Nat.zero_le _)⟩
  · exact Or.inr ⟨i, d, hm, fun j d' hj => hlow j d' (Nat.zero_le _) hj, hres⟩

theorem OpensMarked_unique (bx : SealedBox) (c : client) (i : Nat) (d d' : Bytes)
    (h : OpensMarked bx c i d) (h' : OpensMarked bx c i d') : d = d' := by
  obtain ⟨p, e, hp, he, ho, _⟩ := h
  obtain ⟨p', e', hp', he', ho', _⟩ := h'
  rw [hp] at hp'
  rw [he] at he'
  cases hp'
  cases he'
  rw [ho] at ho'
  exact Option.some.inj ho'

/-- Whenever `decrypt` returns without error, the recovered secret is 10 bytes long
and begins with the marker. -/
theorem decrypt_ok_wellformed (bx : SealedBox) (c c' : client) (v : Bytes)
    (hok : c.decrypt bx = (c', .ok v)) :
    v.length = 10 ∧ bytes.HasPrefix v magic = true := by
  by_cases hlen : c.allPublicKeys.length = c.encMessages.length
  · rcases decrypt_cases bx c hlen with ⟨hres, _⟩ | ⟨i, d, ⟨p, e, _, _, _, hm⟩, _, hres⟩
    · rw [hres] at hok
      cases hok
    · rw [hres] at hok
      by_cases hshort : d.length < 10
      · rw [if_pos hshort] at hok
        cases hok
      · rw [if_neg hshort] at hok
        cases hok
        refine ⟨by simp; omega, ?_⟩
        simp only [bytes.HasPrefix, magic, List.length_cons, List.length_nil, Nat.zero_add,
          Nat.reduceAdd, Bool.and_eq_true, decide_eq_true_eq, List.length_take,
          List.take_take] at hm ⊢
        exact ⟨by omega, by simpa using hm.2⟩
  · simp only [client.decrypt, ne_eq, hlen, not_false_eq_true, if_true] at hok
    cases hok

/-! ## Errors and the scan of `decrypt`: claims -/

/-- C11. Length mismatch: `encrypt` returns its length-mismatch error (and no
envelopes) whenever `len(pubs) ≠ len(coins)`; `decrypt` returns its own whenever
`len(allPublicKeys) ≠ len(encMessages)`, leaving the client as it was; `verify`
returns its own whenever any two of the three lists differ in length.  The check
comes first: with a mismatch these are the results for every box and hash, so a
mismatch is never the cheat error nor "decryption not possible"; and no index is
ever out of range: `encrypt` and `verify` never panic, and `decrypt` panics only
on slicing a marked plaintext shorter than 10 bytes. -/
theorem length_mismatch_errors (bx : SealedBox) (H : Hash512) (pubs : List Key)
    (w : Bytes) (coins : List Bytes) (c : client) :
    (pubs.length ≠ coins.length
        → encrypt bx H pubs w coins = .err "length public keys and coins do not match")
      ∧ (c.allPublicKeys.length ≠ c.encMessages.length
          → c.decrypt bx
              = (c, .err "length of public keys and encrypted messages do not match")
            ∧ (c.decrypt bx).2 ≠ .err "decryption not possible")
      ∧ ((c.allPublicKeys.length ≠ coins.length ∨ coins.length ≠ c.encMessages.length
            ∨ c.allPublicKeys.length ≠ c.encMessages.length)
          → c.verify bx H coins
              = .err "length of public keys, encrypted messages and coins does not match"
            ∧ c.verify bx H coins ≠ .err "it appears the server cheated on us")
      ∧ encrypt bx H pubs w coins ≠ .panic
      ∧ c.verify bx H coins ≠ .panic
      ∧ ((c.decrypt bx).2 = .panic → ∃ (i : Nat) (d : Bytes), OpensMarked bx c i d ∧ d.length < 10) := by
  have hverify : (c.allPublicKeys.length ≠ coins.length ∨ coins.length ≠ c.encMessages.length)
      → c.verify bx H coins
          = .err "length of public keys, encrypted messages and coins does not match" := by
    intro h
    simp only [client.verify, ne_eq, h, if_true]
  refine ⟨?_, ?_, ?_, ?_, ?_, ?_⟩
  · intro h
    simp only [encrypt, ne_eq, h, not_false_eq_true, if_true]
  · intro h
    have hd : c.decrypt bx
        = (c, .err "length of public keys and encrypted messages do not match") := by
      simp only [client.decrypt, ne_eq, h, not_false_eq_true, if_true]
    refine ⟨hd, ?_⟩
    rw [hd]
    intro heq
    exact absurd (Result.err.inj heq) (by decide)
  · intro h
    have h' : c.allPublicKeys.length ≠ coins.length ∨ coins.length ≠ c.encMessages.length := by
      omega
    refine ⟨hverify h', ?_⟩
    rw [hverify h']
    intro heq
    exact absurd (Result.err.inj heq) (by decide)
  · by_cases h : pubs.length = coins.length
    · rw [encrypt_eq bx H pubs w coins h]
      exact fun hp => Result.noConfusion hp
    · simp only [encrypt, ne_eq, h, not_false_eq_true, if_true]
      exact fun hp => Result.noConfusion hp
  · by_cases h : c.allPublicKeys.length = coins.length ∧ coins.length = c.encMessages.length
    · rw [verify_eq bx H c coins h.1 h.2]
      split <;> exact fun hp => Result.noConfusion hp
    · rw [hverify (by omega)]
      exact fun hp => Result.noConfusion hp
  · intro hp
    by_cases hlen : c.allPublicKeys.length = c.encMessages.length
    · rcases decrypt_cases bx c hlen with ⟨hres, _⟩ | ⟨i, d, hm, _, hres⟩
      · rw [hres] at hp
        cases hp
      · refine ⟨i, d, hm, ?_⟩
        by_contra hshort
        rw [hres, if_neg hshort] at hp
        cases hp
    · simp only [client.decrypt, ne_eq, hlen, not_false_eq_true, if_true] at hp
      cases hp

theorem length_mismatch_errors_witness :
    demoKeys.length ≠ (demoCoins.take 3).length
      ∧ mismatchClient.allPublicKeys.length ≠ mismatchClient.encMessages.length
      ∧ encrypt clearBox sha512.Sum512 demoKeys demoSecret (demoCoins.take 3)
          = .err "length public keys and coins do not match"
      ∧ mismatchClient.decrypt clearBox
          = (mismatchClient, .err "length of public keys and encrypted messages do not match")
      ∧ mismatchClient.verify clearBox sha512.Sum512 (demoCoins.take 3)
          = .err "length of public keys, encrypted messages and coins does not match" :=
  ⟨by decide, by decide,
    (length_mismatch_errors clearBox sha512.Sum512 demoKeys demoSecret (demoCoins.take 3)
      mismatchClient).1 (by decide),
    ((length_mismatch_errors clearBox sha512.Sum512 demoKeys demoSecret (demoCoins.take 3)
      mismatchClient).2.1 (by decide)).1,
    ((length_mismatch_errors clearBox sha512.Sum512 demoKeys demoSecret (demoCoins.take 3)
      mismatchClient).2.2.1 (Or.inl (by decide))).1⟩

/-- C12. For every client with `len(allPublicKeys) = len(encMessages)`, `decrypt`
returns the "decryption not possible" error exactly when there is no index `i` at
which `encMessages[i]` opens with `(allPublicKeys[i], privateKey)` to a plaintext
beginning with `"li"`; that is the only error it returns, an envelope that fails
to open being skipped; in particular a private key that opens none of the
envelopes gets that error, and the client is left as it was. -/
theorem decrypt_not_possible_iff (bx : SealedBox) (c : client)
    (hlen : c.allPublicKeys.length = c.encMessages.length) :
    ((c.decrypt bx).2 = .err "decryption not possible"
        ↔ ∀ (i : Nat) (d : Bytes), ¬ OpensMarked bx c i d)
      ∧ (∀ (msg : String), (c.decrypt bx).2 = .err msg → msg = "decryption not possible")
      ∧ ((∀ (i : Nat) (p : Key) (e : Bytes), c.allPublicKeys[i]? = some p →
            c.encMessages[i]? = some e → bx.openAnonymous e p c.privateKey = none)
          → c.decrypt bx = (c, .err "decryption not possible")) := by
  have hnone : (∀ (i : Nat) (d : Bytes), ¬ OpensMarked bx c i d)
      → c.decrypt bx = (c, .err "decryption not possible") := by
    intro h
    rcases decrypt_cases bx c hlen with ⟨hres, _⟩ | ⟨i, d, hm, _, _⟩
    · exact hres
    · exact absurd hm (h i d)
  have herr : ∀ (msg : String), (c.decrypt bx).2 = .err msg
      → msg = "decryption not possible" ∧ ∀ (i : Nat) (d : Bytes), ¬ OpensMarked bx c i d := by
    intro msg h
    rcases decrypt_cases bx c hlen with ⟨hres, hno⟩ | ⟨i, d, _, _, hres⟩
    · rw [hres] at h
      cases h
      exact ⟨rfl, hno⟩
    · rw [hres] at h
      by_cases hshort : d.length < 10
      · rw [if_pos hshort] at h
        cases h
      · rw [if_neg hshort] at h
        cases h
  refine ⟨⟨fun h => (herr _ h).2, fun h => by rw [hnone h]⟩, fun msg h => (herr msg h).1, ?_⟩
  intro h
  apply hnone
  rintro i d ⟨p, e, hp, he, ho, _⟩
  rw [h i p e hp he] at ho
  cases ho

theorem clearBox_stranger (e : Bytes) (p priv : Key) (h : priv ≠ p) :
    clearBox.openAnonymous e p priv = none := by
  simp [clearBox, h]

theorem decrypt_not_possible_iff_witness :
    strangerClient.allPublicKeys.length = strangerClient.encMessages.length
      ∧ strangerClient.decrypt clearBox = (strangerClient, .err "decryption not possible") :=
  ⟨by decide,
    (decrypt_not_possible_iff clearBox strangerClient (by decide)).2.2
      (fun i p e hp _ => clearBox_stranger e p (constKey 9) (by
        have hmem : p ∈ demoKeys := List.getElem?_mem hp
        simp only [demoKeys, List.mem_cons, List.mem_singleton, List.not_mem_nil,
          or_false] at hmem
        rcases hmem with h | h | h | h <;> subst h <;> decide))⟩

/-- C13, at a failing input. The client is sent one envelope that opens with its
key to the 2-byte plaintext `"li"`; `decrypt` finds the marker and evaluates
`decrypted[:10]` on these 2 bytes, which is a run-time panic. -/
theorem decrypt_short_plaintext_panics :
    clearBox.openAnonymous shortEnvelope (constKey 1) (constKey 1) = some magic
      ∧ magic.length = 2
      ∧ client.decrypt clearBox shortClient = (shortClient, .panic) := by
  decide

/-- C16. First match by index: for every client with equal-length lists, when
`decrypt` succeeds its result is the first 10 bytes of the plaintext `d` of the
lowest index `i` at which `encMessages[i]` opens with `(allPublicKeys[i],
privateKey)` to a plaintext beginning with `"li"` (envelopes below `i` that do not
open, or open without the marker, are skipped); and the envelopes above `i` have
no influence: any client with the same keys whose envelopes agree up to index `i`
gets the same result. -/
theorem decrypt_first_match (bx : SealedBox) (c c' : client) (v : Bytes)
    (hlen : c.allPublicKeys.length = c.encMessages.length)
    (hok : c.decrypt bx = (c', .ok v)) :
    ∃ (i : Nat) (d : Bytes), OpensMarked bx c i d
      ∧ (∀ (j : Nat) (d' : Bytes), j < i → ¬ OpensMarked bx c j d')
      ∧ v = d.take 10
      ∧ ∀ (c₂ : client), c₂.allPublicKeys = c.allPublicKeys → c₂.privateKey = c.privateKey →
          c₂.encMessages.length = c.encMessages.length →
          c₂.encMessages.take (i + 1) = c.encMessages.take (i + 1) →
          (c₂.decrypt bx).2 = .ok v := by
  rcases decrypt_cases bx c hlen with ⟨hres, _⟩ | ⟨i, d, hm, hlow, hres⟩
  · rw [hres] at hok
    cases hok
  · have hshort : ¬ d.length < 10 := by
      intro hshort
      rw [hres, if_pos hshort] at hok
      cases hok
    rw [hres, if_neg hshort] at hok
    cases hok
    refine ⟨i, d, hm, hlow, rfl, ?_⟩
    intro c₂ hkeys hpriv hlen₂ htake
    -- the two clients open the same plaintexts at every index up to `i`
    have hsame : ∀ (j : Nat) (x : Bytes), j ≤ i → (OpensMarked bx c₂ j x ↔ OpensMarked bx c j x) := by
      intro j x hj
      have hget : c₂.encMessages[j]? = c.encMessages[j]? := by
        have h₁ : (c₂.encMessages.take (i + 1))[j]? = c₂.encMessages[j]? := by
          rw [List.getElem?_take, if_pos (by omega)]
        have h₂ : (c.encMessages.take (i + 1))[j]? = c.encMessages[j]? := by
          rw [List.getElem?_take, if_pos (by omega)]
        rw [← h₁, ← h₂, htake]
      simp only [OpensMarked, hkeys, hpriv, hget]
    have hlen' : c₂.allPublicKeys.length = c₂.encMessages.length := by
      rw [hkeys, hlen₂, hlen]
    rcases decrypt_cases bx c₂ hlen' with ⟨_, hno⟩ | ⟨i₂, d₂, hm₂, hlow₂, hres₂⟩
    · exact absurd ((hsame i d (Nat.le_refl _)).mpr hm) (hno i d)
    · have hi : i₂ = i := by
        rcases Nat.lt_trichotomy i₂ i with h | h | h
        · exact absurd ((hsame i₂ d₂ (by omega)).mp hm₂) (hlow i₂ d₂ h)
        · exact h
        · exact absurd ((hsame i d (Nat.le_refl _)).mpr hm) (hlow₂ i d h)
      subst hi
      have hd : d₂ = d :=
        OpensMarked_unique bx c i₂ d₂ d ((hsame i₂ d₂ (Nat.le_refl _)).mp hm₂) hm
      subst hd
      rw [hres₂, if_neg hshort]

theorem decrypt_first_match_witness :
    scanClient.allPublicKeys.length = scanClient.encMessages.length
      ∧ scanClient.decrypt clearBox
          = ({ scanClient with wDash := [108, 105, 5, 5, 5, 5, 5, 5, 5, 5] },
             .ok [108, 105, 5, 5, 5, 5, 5, 5, 5, 5])
      ∧ ∃ (i : Nat) (d : Bytes), OpensMarked clearBox scanClient i d
          ∧ (∀ (j : Nat) (d' : Bytes), j < i → ¬ OpensMarked clearBox scanClient j d')
          ∧ [108, 105, 5, 5, 5, 5, 5, 5, 5, 5] = d.take 10
          ∧ ∀ (c₂ : client), c₂.allPublicKeys = scanClient.allPublicKeys →
              c₂.privateKey = scanClient.privateKey →
              c₂.encMessages.length = scanClient.encMessages.length →
              c₂.encMessages.take (i + 1) = scanClient.encMessages.take (i + 1) →
              (c₂.decrypt clearBox).2 = .ok [108, 105, 5, 5, 5, 5, 5, 5, 5, 5] :=
  ⟨by decide, by decide,
    decrypt_first_match clearBox scanClient
      { scanClient with wDash := [108, 105, 5, 5, 5, 5, 5, 5, 5, 5] }
      [108, 105, 5, 5, 5, 5, 5, 5, 5, 5] (by decide) (by decide)⟩

/-- C19. Client state changes only by a successful `decrypt`: `decrypt` never
changes `allPublicKeys`, `privateKey` or `encMessages`; when it returns an error
`wDash` is left as it was; when it succeeds `wDash` equals the returned secret;
and a call of `verify`, whatever it returns, leaves the caller's client as it
was. -/
theorem client_state_frame (bx : SealedBox) (H : Hash512) (c : client) (coins : List Bytes) :
    (c.decrypt bx).1.allPublicKeys = c.allPublicKeys
      ∧ (c.decrypt bx).1.privateKey = c.privateKey
      ∧ (c.decrypt bx).1.encMessages = c.encMessages
      ∧ (∀ (msg : String), (c.decrypt bx).2 = .err msg → (c.decrypt bx).1 = c)
      ∧ (∀ (v : Bytes), (c.decrypt bx).2 = .ok v → (c.decrypt bx).1.wDash = v)
      ∧ (c.callVerify bx H coins).1 = c
      ∧ (c.callVerify bx H coins).2 = c.verify bx H coins := by
  have hcases : ((c.decrypt bx).1 = c ∧ ∀ (v : Bytes), (c.decrypt bx).2 ≠ .ok v)
      ∨ ∃ v, c.decrypt bx = ({ c with wDash := v }, .ok v) := by
    by_cases hlen : c.allPublicKeys.length = c.encMessages.length
    · rcases decrypt_cases bx c hlen with ⟨hres, _⟩ | ⟨i, d, _, _, hres⟩
      · left
        rw [hres]
        exact ⟨rfl, fun v hv => Result.noConfusion hv⟩
      · by_cases hshort : d.length < 10
        · left
          rw [hres, if_pos hshort]
          exact ⟨rfl, fun v hv => Result.noConfusion hv⟩
        · right
          exact ⟨_, by rw [hres, if_neg hshort]⟩
    · left
      have hd : c.decrypt bx
          = (c, .err "length of public keys and encrypted messages do not match") := by
        simp only [client.decrypt, ne_eq, hlen, not_false_eq_true, if_true]
      rw [hd]
      exact ⟨rfl, fun v hv => Result.noConfusion hv⟩
  rcases hcases with ⟨h, hno⟩ | ⟨v, h⟩
  · exact ⟨by rw [h], by rw [h], by rw [h], fun _ _ => h, fun v hv => absurd hv (hno v),
      rfl, rfl⟩
  · rw [h]
    refine ⟨rfl, rfl, rfl, ?_, ?_, rfl, rfl⟩
    · intro msg hmsg
      cases hmsg
    · intro v' hv'
      cases hv'
      rfl

/-! ## Key generation: claim -/

theorem genKeyPairsLoop_cases (gen : KeyGen) :
    ∀ (k i : Nat) (pubOut privOut : List (Option Key)),
      pubOut.length = i + k → privOut.length = i + k →
      ((∀ j, i ≤ j → j < i + k → (gen j).2.2 = none)
          ∧ ∃ pubs privs, genKeyPairsLoop gen k i pubOut privOut = (pubs, privs, none)
              ∧ pubs.length = i + k ∧ privs.length = i + k
              ∧ (∀ j, j < i → pubs[j]? = pubOut[j]? ∧ privs[j]? = privOut[j]?)
              ∧ (∀ j, i ≤ j → j < i + k →
                  pubs[j]? = some (gen j).1 ∧ privs[j]? = some (gen j).2.1))
        ∨ ∃ j msg, i ≤ j ∧ j < i + k ∧ (∀ j', i ≤ j' → j' < j → (gen j').2.2 = none)
            ∧ (gen j).2.2 = some msg
            ∧ genKeyPairsLoop gen k i pubOut privOut = ([], [], some msg) := by
  intro k
  induction k with
  | zero =>
    intro i pubOut privOut hp hq
    left
    refine ⟨fun j h₁ h₂ => by omega, pubOut, privOut, rfl, hp, hq, fun j _ => ⟨rfl, rfl⟩, ?_⟩
    intro j h₁ h₂
    omega
  | succ k ih =>
    intro i pubOut privOut hp hq
    rcases hg : gen i with ⟨pub, priv, err⟩
    cases err with
    | some msg =>
      right
      refine ⟨i, msg, Nat.le_refl _, by omega, fun j' h₁ h₂ => by omega, by rw [hg], ?_⟩
      simp only [genKeyPairsLoop, hg]
    | none =>
      have hstep : genKeyPairsLoop gen (k + 1) i pubOut privOut
          = genKeyPairsLoop gen k (i + 1) (pubOut.set i pub) (privOut.set i priv) := by
        simp only [genKeyPairsLoop, hg]
      rw [hstep]
      rcases ih (i + 1) (pubOut.set i pub) (privOut.set i priv) (by simp; omega)
          (by simp; omega) with
        ⟨hall, pubs, privs, hres, hl₁, hl₂, hlow, hhigh⟩ | ⟨j, msg, h₁, h₂, hbefore, hfail, hres⟩
      · left
        refine ⟨?_, pubs, privs, hres, by omega, by omega, ?_, ?_⟩
        · intro j h₁ h₂
          rcases Nat.eq_or_lt_of_le h₁ with h | h
          · subst h
            rw [hg]
          · exact hall j h (by omega)
        · intro j hj
          have := hlow j (by omega)
          rw [List.getElem?_set_ne (by omega), List.getElem?_set_ne (by omega)] at this
          exact this
        · intro j h₁ h₂
          rcases Nat.eq_or_lt_of_le h₁ with h | h
          · subst h
            have := hlow i (by omega)
            rw [List.getElem?_set_self (by omega), List.getElem?_set_self (by omega)] at this
            rw [hg]
            exact this
          · exact hhigh j h (by omega)
      · right
        refine ⟨j, msg, by omega, by omega, ?_, hfail, hres⟩
        intro j' h₁' h₂'
        rcases Nat.eq_or_lt_of_le h₁' with h | h
        · subst h
          rw [hg]
        · exact hbefore j' h h₂'

/-- C14. For every `n ≥ 0` and every key generator, `genKeyPairs(n)` either makes
`n` successful generator calls and returns, with a nil error, two lists of length
exactly `n` in which `pubOut[i]` and `privOut[i]` are the two keys of the `i`-th
call; or, at the first call `k < n` that fails, returns that call's error with no
keys at all (both lists nil), never a partial key set. -/
theorem genKeyPairs_all_or_nothing (gen : KeyGen) (n : Nat) :
    ((∀ i, i < n → (gen i).2.2 = none)
        ∧ (genKeyPairs gen n).2.2 = none
        ∧ (genKeyPairs gen n).1.length = n ∧ (genKeyPairs gen n).2.1.length = n
        ∧ ∀ i, i < n → (genKeyPairs gen n).1[i]? = some (gen i).1
            ∧ (genKeyPairs gen n).2.1[i]? = some (gen i).2.1)
      ∨ ∃ k msg, k < n ∧ (∀ i, i < k → (gen i).2.2 = none) ∧ (gen k).2.2 = some msg
          ∧ genKeyPairs gen n = ([], [], some msg) := by
  rcases genKeyPairsLoop_cases gen n 0 (List.replicate n none) (List.replicate n none)
      (by simp) (by simp) with
    ⟨hall, pubs, privs, hres, hl₁, hl₂, _, hhigh⟩ | ⟨j, msg, _, h₂, hbefore, hfail, hres⟩
  · left
    have hg : genKeyPairs gen n = (pubs, privs, none) := hres
    rw [hg]
    exact ⟨fun i hi => hall i (Nat.zero_le _) (by omega), rfl,
      (by show pubs.length = n; omega), (by show privs.length = n; omega),
      fun i hi => hhigh i (Nat.zero_le _) (by omega)⟩
  · right
    exact ⟨j, msg, by omega, fun i hi => hbefore i (Nat.zero_le _) hi, hfail, hres⟩

/-! ## Error values: claim -/

/-- C15. The cheat outcome is distinguishable from every other failure: the five
error messages are pairwise different, and every error a function returns names
its failure kind: `encrypt` returns only its length error, and only on a length
mismatch; `decrypt` returns its length error only on a mismatch and "decryption
not possible" only without one; `verify` returns its length error only on a
mismatch and the cheat error only when the lengths agree and some re-sealed
envelope differs from the one received. -/
theorem error_kinds_distinct (bx : SealedBox) (H : Hash512) (pubs : List Key) (w : Bytes)
    (coins : List Bytes) (c : client) :
    errorMessages.Nodup
      ∧ (∀ (msg : String), encrypt bx H pubs w coins = .err msg →
          msg = "length public keys and coins do not match" ∧ pubs.length ≠ coins.length)
      ∧ (∀ (msg : String), (c.decrypt bx).2 = .err msg →
          (msg = "length of public keys and encrypted messages do not match"
              ∧ c.allPublicKeys.length ≠ c.encMessages.length)
            ∨ (msg = "decryption not possible"
                ∧ c.allPublicKeys.length = c.encMessages.length))
      ∧ (∀ (msg : String), c.verify bx H coins = .err msg →
          (msg = "length of public keys, encrypted messages and coins does not match"
              ∧ (c.allPublicKeys.length ≠ coins.length ∨ coins.length ≠ c.encMessages.length))
            ∨ (msg = "it appears the server cheated on us"
                ∧ c.allPublicKeys.length = coins.length
                ∧ coins.length = c.encMessages.length
                ∧ ∃ (i : Nat) (p : Key) (coin orig : Bytes), c.allPublicKeys[i]? = some p
                    ∧ coins[i]? = some coin ∧ c.encMessages[i]? = some orig
                    ∧ SealAnonymous bx H (c.wDash ++ coin) p (newDetermRand deterministicSeed)
                        ≠ .ok orig)) := by
  refine ⟨by decide, ?_, ?_, ?_⟩
  · intro msg h
    by_cases hlen : pubs.length = coins.length
    · rw [encrypt_eq bx H pubs w coins hlen] at h
      cases h
    · simp only [encrypt, ne_eq, hlen, not_false_eq_true, if_true] at h
      exact ⟨(Result.err.inj h).symm, hlen⟩
  · intro msg h
    by_cases hlen : c.allPublicKeys.length = c.encMessages.length
    · right
      rcases decrypt_cases bx c hlen with ⟨hres, _⟩ | ⟨i, d, _, _, hres⟩
      · rw [hres] at h
        exact ⟨(Result.err.inj h).symm, hlen⟩
      · rw [hres] at h
        by_cases hshort : d.length < 10
        · rw [if_pos hshort] at h
          cases h
        · rw [if_neg hshort] at h
          cases h
    · left
      simp only [client.decrypt, ne_eq, hlen, not_false_eq_true, if_true] at h
      exact ⟨(Result.err.inj h).symm, hlen⟩
  · intro msg h
    by_cases hlen : c.allPublicKeys.length = coins.length ∧ coins.length = c.encMessages.length
    · right
      rw [verify_eq bx H c coins hlen.1 hlen.2] at h
      by_cases heq : List.zipWith (fun p coin => sealFresh bx H p (c.wDash ++ coin))
          c.allPublicKeys coins = c.encMessages
      · rw [if_pos heq] at h
        cases h
      · rw [if_neg heq] at h
        refine ⟨(Result.err.inj h).symm, hlen.1, hlen.2, ?_⟩
        rw [zipWith_eq_iff_getElem? _ _ _ _ hlen.1 hlen.2] at heq
        simp only [not_forall] at heq
        obtain ⟨i, p, coin, orig, hp, hc, ho, hne⟩ := heq
        refine ⟨i, p, coin, orig, hp, hc, ho, ?_⟩
        rw [SealAnonymous_fresh]
        exact fun hh => hne (Result.ok.inj hh)
    · left
      have hor : c.allPublicKeys.length ≠ coins.length ∨ coins.length ≠ c.encMessages.length := by
        omega
      simp only [client.verify, ne_eq, hor, if_true] at h
      exact ⟨(Result.err.inj h).symm, hor⟩

/-! ## Secrets that are not well formed: claim -/

theorem HasPrefix_append (w coin : Bytes) (h2 : 2 ≤ w.length) :
    bytes.HasPrefix (w ++ coin) magic = bytes.HasPrefix w magic := by
  have htake : (w ++ coin).take 2 = w.take 2 := List.take_append_of_le_length h2
  have hlen : 2 ≤ (w ++ coin).length := by simp; omega
  simp only [bytes.HasPrefix, magic, List.length_cons, List.length_nil, Nat.zero_add,
    Nat.reduceAdd, htake, hlen, h2]

theorem HasPrefix_magic_length (w : Bytes) (h : bytes.HasPrefix w magic = true) :
    2 ≤ w.length := by
  simp only [bytes.HasPrefix, magic, List.length_cons, List.length_nil, Nat.zero_add,
    Nat.reduceAdd, Bool.and_eq_true, decide_eq_true_eq] at h
  exact h.1

/-- On the envelopes of `encrypt`, with a correct box, an envelope that opens at
all opens to `w ‖ coins[k]`. -/
theorem OpensMarked_encrypt (bx : SealedBox) (H : Hash512) (pubs privs : List Key)
    (w : Bytes) (coins : List Bytes) (priv : Key) (wd : Bytes) (k : Nat) (d : Bytes)
    (hprivs : privs.length = pubs.length) (hcoins : coins.length = pubs.length)
    (hbox : BoxCorrect bx pubs privs) (hpriv : priv ∈ privs)
    (hm : OpensMarked bx
      { allPublicKeys := pubs, privateKey := priv,
        encMessages := List.zipWith (fun p c => sealFresh bx H p (w ++ c)) pubs coins,
        wDash := wd } k d) :
    ∃ coin, coins[k]? = some coin ∧ d = w ++ coin := by
  obtain ⟨p, e, hp, he, ho, _⟩ := hm
  simp only at hp he ho
  have hk : k < pubs.length := (List.getElem?_eq_some.mp hp).1
  have hc : coins[k]? = some coins[k] := List.getElem?_eq_getElem (by omega)
  have hq : privs[k]? = some privs[k] := List.getElem?_eq_getElem (by omega)
  rw [List.getElem?_zipWith, hp, hc] at he
  simp only [Option.some.injEq] at he
  subst he
  refine ⟨coins[k], hc, ?_⟩
  simp only [sealFresh] at ho
  rcases (hbox k p privs[k] hp hq).2 priv hpriv (w ++ coins[k]) _ (freshEphemeral_length H)
    with hnone | hsome
  · rw [hnone] at ho
    cases ho
  · rw [hsome] at ho
    exact (Option.some.inj ho).symm

/-- C17. `encrypt` does not validate the secret: for equal-length `pubs` and
`coins` it returns envelopes for any byte string `w`.  With a correct sealed box
(each participant's key opens its own envelope to the plaintext, and a
participant's key opens no envelope to anything else), if `w` is at least 2 bytes
long and does not begin with `"li"`, `decrypt` on these envelopes returns
"decryption not possible" for every participant's private key; and if `w` begins
with `"li"` but is not 10 bytes long and the coins are 8 bytes long, `decrypt`
with a participant's private key succeeds with a 10-byte value, the first 10
bytes of some `w ‖ coins[k]`, that is not `w`. -/
theorem roundtrip_needs_wellformed_secret (bx : SealedBox) (H : Hash512)
    (pubs privs : List Key) (w : Bytes) (coins : List Bytes)
    (hprivs : privs.length = pubs.length) (hcoins : coins.length = pubs.length)
    (hbox : BoxCorrect bx pubs privs) :
    ∃ encs, encrypt bx H pubs w coins = .ok encs
      ∧ (2 ≤ w.length → bytes.HasPrefix w magic = false →
          ∀ (priv : Key) (wd : Bytes), priv ∈ privs →
            client.decrypt bx
                { allPublicKeys := pubs, privateKey := priv, encMessages := encs, wDash := wd }
              = ({ allPublicKeys := pubs, privateKey := priv, encMessages := encs,
                   wDash := wd }, .err "decryption not possible"))
      ∧ (bytes.HasPrefix w magic = true → w.length ≠ 10 →
          (∀ coin, coin ∈ coins → coin.length = 8) →
          ∀ (i : Nat) (priv : Key) (wd : Bytes), privs[i]? = some priv →
            ∃ v, (client.decrypt bx
                { allPublicKeys := pubs, privateKey := priv, encMessages := encs,
                  wDash := wd }).2 = .ok v
              ∧ v.length = 10 ∧ v ≠ w
              ∧ ∃ coin, coin ∈ coins ∧ v = (w ++ coin).take 10) := by
  refine ⟨_, encrypt_eq bx H pubs w coins hcoins.symm, ?_, ?_⟩
  · intro h2 hpre priv wd hpriv
    have hcs := decrypt_cases bx
      (⟨pubs, priv, List.zipWith (fun p c => sealFresh bx H p (w ++ c)) pubs coins, wd⟩ : client)
      (by simp [hcoins])
    rcases hcs with ⟨hres, _⟩ | ⟨k, d, hm, _, _⟩
    · exact hres
    · obtain ⟨coin, _, hd⟩ :=
        OpensMarked_encrypt bx H pubs privs w coins priv wd k d hprivs hcoins hbox hpriv hm
      obtain ⟨_, _, _, _, _, hmark⟩ := hm
      rw [hd, HasPrefix_append w coin h2, hpre] at hmark
      cases hmark
  · intro hpre hw10 hcoin8 i priv wd hi
    have h2 := HasPrefix_magic_length w hpre
    have hcs := decrypt_cases bx
      (⟨pubs, priv, List.zipWith (fun p c => sealFresh bx H p (w ++ c)) pubs coins, wd⟩ : client)
      (by simp [hcoins])
    rcases hcs with ⟨_, hno⟩ | ⟨k, d, hm, _, hres⟩
    · exfalso
      have hil : i < privs.length := (List.getElem?_eq_some.mp hi).1
      have hp : pubs[i]? = some pubs[i] := List.getElem?_eq_getElem (by omega)
      have hc : coins[i]? = some coins[i] := List.getElem?_eq_getElem (by omega)
      refine hno i (w ++ coins[i]) ⟨pubs[i], sealFresh bx H pubs[i] (w ++ coins[i]), hp, ?_, ?_, ?_⟩
      · simp only [List.getElem?_zipWith, hp, hc]
      · exact (hbox i _ priv hp hi).1 _ _ (freshEphemeral_length H)
      · rw [HasPrefix_append w _ h2, hpre]
    · obtain ⟨coin, hc, hd⟩ :=
        OpensMarked_encrypt bx H pubs privs w coins priv wd k d hprivs hcoins hbox
          (List.getElem?_mem hi) hm
      have hmem : coin ∈ coins := List.getElem?_mem hc
      have h8 := hcoin8 coin hmem
      have hlong : ¬ d.length < 10 := by
        rw [hd, List.length_append, h8]
        omega
      rw [hres, if_neg hlong]
      refine ⟨d.take 10, rfl, ?_, ?_, coin, hmem, by rw [hd]⟩
      · rw [List.length_take]
        omega
      · intro heq
        have : (d.take 10).length = 10 := by
          rw [List.length_take]
          omega
        rw [heq] at this
        exact hw10 this

theorem roundtrip_needs_wellformed_secret_witness :
    aliasPrivs.length = aliasPubs.length ∧ demoCoins.length = aliasPubs.length
      ∧ bytes.HasPrefix oddSecret magic = true ∧ oddSecret.length ≠ 10
      ∧ aliasPrivs[3]? = some aliasKey
      ∧ ∃ encs, encrypt clampBox sha512.Sum512 aliasPubs oddSecret demoCoins = .ok encs
          ∧ ∃ v, (client.decrypt clampBox
                { allPublicKeys := aliasPubs, privateKey := aliasKey, encMessages := encs,
                  wDash := [] }).2 = .ok v
              ∧ v.length = 10 ∧ v ≠ oddSecret := by
  refine ⟨by decide, by decide, by decide, by decide, rfl, ?_⟩
  obtain ⟨encs, henc, _, hodd⟩ :=
    roundtrip_needs_wellformed_secret clampBox sha512.Sum512 aliasPubs aliasPrivs oddSecret
      demoCoins (by decide) (by decide) (clampBox_correct aliasPrivs)
  obtain ⟨v, hv, hlen, hne, _⟩ :=
    hodd (by decide) (by decide) (by decide) 3 aliasKey [] rfl
  exact ⟨encs, henc, v, hv, hlen, hne⟩

/-! ## Whole cycles: claim -/

theorem chainState_add (H : Hash512) (seed : Bytes) (m j : Nat) :
    chainState H seed (m + j) = chainState H (chainState H seed m) j := by
  induction j with
  | zero => rfl
  | succ j ih =>
    show ((H (chainState H seed (m + j))).val.take 32) = _
    rw [ih]
    rfl

/-- C18. A `Read` of `n` bytes advances the hash chain by exactly `⌈n / 32⌉`
cycles (written `(n + 31) / 32`) and discards the unused tail of the last cycle's
output: the next `Read` delivers the chain's output from the state reached.  A
`Read` of 0 bytes leaves the state unchanged; and for every seed, reading `a`
bytes, `a` a multiple of 32, and then `b` bytes yields the same `a + b` bytes and
the same final state as reading `a + b` bytes at once. -/
theorem Read_whole_cycles (H : Hash512) (seed : Bytes) (d : determRand)
    (b₁ b₂ b₁₂ : Bytes) :
    (d.Read H b₁).1.next = chainState H d.next ((b₁.length + 31) / 32)
      ∧ ((d.Read H b₁).1.Read H b₂).2.1
          = (chainPrefix H (chainState H d.next ((b₁.length + 31) / 32))
              ((b₂.length + 31) / 32)).take b₂.length
      ∧ d.Read H [] = (d, [], 0, none)
      ∧ (b₁.length % 32 = 0 → b₁₂.length = b₁.length + b₂.length →
          ((newDetermRand seed).Read H b₁).2.1 ++ (((newDetermRand seed).Read H b₁).1.Read H b₂).2.1
              = ((newDetermRand seed).Read H b₁₂).2.1
            ∧ (((newDetermRand seed).Read H b₁).1.Read H b₂).1
              = ((newDetermRand seed).Read H b₁₂).1) := by
  refine ⟨by rw [Read_eq], by rw [Read_eq, Read_eq], ?_, ?_⟩
  · rw [Read_eq]
    simp [chainState, chainPrefix]
  · intro ha h₁₂
    simp only [Read_eq, newDetermRand, h₁₂]
    obtain ⟨q, hq⟩ : ∃ q, b₁.length = 32 * q := ⟨b₁.length / 32, by omega⟩
    rw [hq]
    have e₁ : (32 * q + 31) / 32 = q := by omega
    have e₂ : (32 * q + b₂.length + 31) / 32 = q + (b₂.length + 31) / 32 := by omega
    have hP := chainPrefix_length H seed q
    refine ⟨?_, ?_⟩
    · rw [e₁, e₂, chainPrefix_add, ← hP, List.take_length, List.take_append]
    · rw [e₁, e₂, chainState_add]

theorem Read_whole_cycles_witness :
    (List.replicate 32 (0 : Byte)).length % 32 = 0
      ∧ (List.replicate 37 (0 : Byte)).length
          = (List.replicate 32 (0 : Byte)).length + (List.replicate 5 (0 : Byte)).length
      ∧ ((newDetermRand deterministicSeed).Read sha512.Sum512 (List.replicate 32 0)).2.1
            ++ (((newDetermRand deterministicSeed).Read sha512.Sum512
                  (List.replicate 32 0)).1.Read sha512.Sum512 (List.replicate 5 0)).2.1
          = ((newDetermRand deterministicSeed).Read sha512.Sum512 (List.replicate 37 0)).2.1
      ∧ (((newDetermRand deterministicSeed).Read sha512.Sum512
              (List.replicate 32 0)).1.Read sha512.Sum512 (List.replicate 5 0)).1
          = ((newDetermRand deterministicSeed).Read sha512.Sum512 (List.replicate 37 0)).1 :=
  ⟨by decide, by decide,
    (Read_whole_cycles sha512.Sum512 deterministicSeed (newDetermRand deterministicSeed)
      (List.replicate 32 0) (List.replicate 5 0) (List.replicate 37 0)).2.2.2 (by decide)
      (by decide)⟩

end Lindell
